import Mathlib

/-!
Shallow embedding of the name-validation core of `src/pages/Home.tsx`
(the `NameTable` component of the address_cleanup repository): the script
classifier `detectScript`, the security matcher `containsSecurityThreat`,
particle-aware capitalization `properCapitalize`, the name decomposer
`validateName`, and the post-hoc row filter `filterProblemNames`.

Strings are modelled as `String` / `List Char`; JavaScript `toLowerCase` /
`toUpperCase` are modelled on the ASCII range (the code only compares
against ASCII vocabularies and only cases Latin-script strings, which the
classifier restricts to ASCII).  The recursive capitalization function is
defined with a fuel parameter (fuel strictly exceeding the string length,
which every recursive call decreases) so that it is structurally recursive
and computable by `decide`.
-/

namespace AddressCleanup

abbrev Str := List Char

/-- ASCII case-folding to lower case, modelling JavaScript `toLowerCase`. -/
def jsToLower (c : Char) : Char :=
  if 65 ≤ c.toNat ∧ c.toNat ≤ 90 then Char.ofNat (c.toNat + 32) else c

/-- ASCII case-folding to upper case, modelling JavaScript `toUpperCase`. -/
def jsToUpper (c : Char) : Char :=
  if 97 ≤ c.toNat ∧ c.toNat ≤ 122 then Char.ofNat (c.toNat - 32) else c

def lowerStr (l : Str) : Str := l.map jsToLower

def upperStr (l : Str) : Str := l.map jsToUpper

/-- The JavaScript whitespace class `\s` (also used by `String.prototype.trim`). -/
def isJsWs (c : Char) : Bool :=
  c.toNat = 32 ∨ (9 ≤ c.toNat ∧ c.toNat ≤ 13) ∨ c.toNat = 160 ∨ c.toNat = 0x1680 ∨
  (0x2000 ≤ c.toNat ∧ c.toNat ≤ 0x200A) ∨ c.toNat = 0x2028 ∨ c.toNat = 0x2029 ∨
  c.toNat = 0x202F ∨ c.toNat = 0x205F ∨ c.toNat = 0x3000 ∨ c.toNat = 0xFEFF

/-- `String.prototype.trim`. -/
def jsTrim (l : Str) : Str :=
  ((l.dropWhile isJsWs).reverse.dropWhile isJsWs).reverse

/-- Helper for `collapseWs`: the flag records whether the previous character
    was whitespace (so the current run has already emitted its space). -/
def collapseWsGo : Bool → Str → Str
  | _, [] => []
  | prevWs, c :: rest =>
    if isJsWs c then
      if prevWs then collapseWsGo true rest else ' ' :: collapseWsGo true rest
    else c :: collapseWsGo false rest

/-- `replace(/\s+/g, ' ')`: collapse every whitespace run to a single space. -/
def collapseWs (l : Str) : Str := collapseWsGo false l

/-- `String.prototype.split` with a single-character separator. -/
def splitOnChar (sep : Char) : Str → List Str
  | [] => [[]]
  | c :: rest =>
    if c = sep then [] :: splitOnChar sep rest
    else
      match splitOnChar sep rest with
      | [] => [[c]]
      | p :: ps => (c :: p) :: ps

/-- `Array.prototype.join` with a single-character separator. -/
def joinSep (sep : Char) : List Str → Str
  | [] => []
  | [p] => p
  | p :: q :: ps => p ++ sep :: joinSep sep (q :: ps)

/-- `String.prototype.startsWith`. -/
def startsWithSeq : Str → Str → Bool
  | _, [] => true
  | [], _ :: _ => false
  | c :: cs, p :: ps => c = p && startsWithSeq cs ps

/-- `String.prototype.includes`. -/
def hasSeq (pat : Str) : Str → Bool
  | [] => startsWithSeq [] pat
  | c :: cs => startsWithSeq (c :: cs) pat || hasSeq pat cs

/-- `replace(/\.$/, '')`: drop one trailing period. -/
def stripTrailingDot (l : Str) : Str :=
  if l.getLast? = some '.' then l.dropLast else l

/-- One two-character replacement pattern of the encoding-repair table,
    applied globally, scanning left to right and not rescanning output. -/
def replacePair (a b r : Char) : Str → Str
  | [] => []
  | [c] => [c]
  | c :: d :: rest =>
    if c = a ∧ d = b then r :: replacePair a b r rest
    else c :: replacePair a b r (d :: rest)

/-- The fixed encoding-repair table of `validateName`: the twelve
    UTF-8-as-Latin-1 two-byte mis-encodings, then deletion of U+FFFD. -/
def fixEncoding (l : Str) : Str :=
  let l := replacePair 'Ã' '¡' 'á' l
  let l := replacePair 'Ã' '©' 'é' l
  let l := replacePair 'Ã' '­' 'í' l
  let l := replacePair 'Ã' '³' 'ó' l
  let l := replacePair 'Ã' 'º' 'ú' l
  let l := replacePair 'Ã' '±' 'ñ' l
  let l := replacePair 'Ã' '¤' 'ä' l
  let l := replacePair 'Ã' '¶' 'ö' l
  let l := replacePair 'Ã' '¼' 'ü' l
  let l := replacePair 'Ã' '¨' 'è' l
  let l := replacePair 'Ã' '´' 'ô' l
  let l := replacePair 'Ã' '®' 'î' l
  l.filter (fun c => c ≠ '�')

/-- The `Script` union type of the source. -/
inductive Script where
  | latin
  | cyrillic
  | devanagari
  | arabic
  | han
  | hiragana
  | katakana
  | hangul
  | thai
  | nonLatin
  | encodingIssue
  | unknown
deriving DecidableEq, Repr

def isCyrillicChar (c : Char) : Bool := 0x400 ≤ c.toNat ∧ c.toNat ≤ 0x4FF

def isDevanagariChar (c : Char) : Bool := 0x900 ≤ c.toNat ∧ c.toNat ≤ 0x97F

def isArabicChar (c : Char) : Bool :=
  (0x600 ≤ c.toNat ∧ c.toNat ≤ 0x6FF) ∨ (0x750 ≤ c.toNat ∧ c.toNat ≤ 0x77F)

def isHanChar (c : Char) : Bool :=
  (0x4E00 ≤ c.toNat ∧ c.toNat ≤ 0x9FFF) ∨ (0x3400 ≤ c.toNat ∧ c.toNat ≤ 0x4DBF)

def isHiraganaChar (c : Char) : Bool := 0x3040 ≤ c.toNat ∧ c.toNat ≤ 0x309F

def isKatakanaChar (c : Char) : Bool := 0x30A0 ≤ c.toNat ∧ c.toNat ≤ 0x30FF

def isHangulChar (c : Char) : Bool :=
  (0xAC00 ≤ c.toNat ∧ c.toNat ≤ 0xD7AF) ∨ (0x1100 ≤ c.toNat ∧ c.toNat ≤ 0x11FF)

def isThaiChar (c : Char) : Bool := 0xE00 ≤ c.toNat ∧ c.toNat ≤ 0xE7F

/-- `detectScript` on the character list of a (non-null) string: the
    replacement-character check comes first, then the script blocks in the
    source's iteration order, then the generic non-ASCII fallback. -/
def detectScriptStr (l : Str) : Script :=
  if l = [] then .unknown
  else if l.any (fun c => c.toNat = 0xFFFD) then .encodingIssue
  else if l.any isCyrillicChar then .cyrillic
  else if l.any isDevanagariChar then .devanagari
  else if l.any isArabicChar then .arabic
  else if l.any isHanChar then .han
  else if l.any isHiraganaChar then .hiragana
  else if l.any isKatakanaChar then .katakana
  else if l.any isHangulChar then .hangul
  else if l.any isThaiChar then .thai
  else if l.any (fun c => c.toNat > 0x7F) then .nonLatin
  else .latin

/-- `detectScript`: `none` models a null/undefined (or non-string) argument. -/
def detectScript (text : Option String) : Script :=
  match text with
  | none => .unknown
  | some s => detectScriptStr s.data

def HONORIFICS : List String :=
  ["mr", "mrs", "ms", "miss", "dr", "prof", "rev", "hon", "sir", "madam", "lord", "lady",
   "capt", "major", "col", "lt", "cmdr", "sgt"]

def SUFFIXES : List String :=
  ["jr", "sr", "i", "ii", "iii", "iv", "v", "phd", "md", "dds", "esq"]

def NAME_PARTICLES : List String :=
  ["von", "van", "de", "del", "della", "di", "da", "do", "dos", "das", "du", "la", "le",
   "el", "les", "lo", "mac", "mc", "o'", "al", "bin", "ibn", "ap", "ben", "bat", "bint"]

def SUSPICIOUS_NAMES : List String :=
  ["test", "user", "admin", "sample", "demo", "fake", "anonymous", "unknown", "noreply",
   "example", "null", "undefined", "n/a", "na", "none", "blank"]

def SECURITY_PATTERNS : List String :=
  [");", "--", "/*", "*/", ";", "drop", "select", "insert", "update", "delete", "union",
   "script", "<>"]

/-- `containsSecurityThreat`. -/
def containsSecurityThreat (text : Option String) : Bool :=
  match text with
  | none => false
  | some s =>
    if s.data = [] then false
    else SECURITY_PATTERNS.any (fun p => hasSeq (lowerStr p.data) (lowerStr s.data))

/-- `x.charAt(0).toUpperCase() + x.slice(1).toLowerCase()`. -/
def capWord (l : Str) : Str :=
  match l with
  | [] => []
  | c :: rest => jsToUpper c :: rest.map jsToLower

/-- The particle loop of `properCapitalize`: per particle, in vocabulary
    order, the exact match is tested before the `particle + ' '` leading
    match; the result records which particle hit and whether exactly. -/
def particleHit (l : Str) : Option (String × Bool) :=
  NAME_PARTICLES.findSome? (fun p =>
    if lowerStr l = p.data then some (p, true)
    else if startsWithSeq (lowerStr l) (p.data ++ [' ']) then some (p, false)
    else none)

/-- `properCapitalize` on a character list, with fuel for the recursion on
    hyphen-delimited parts and on the text after a leading particle.  Every
    recursive call is on a strictly shorter list, so any fuel strictly
    exceeding the list length makes the out-of-fuel branch unreachable. -/
def pcFuel : Nat → Str → Bool → Str
  | 0, l, _ => l
  | fuel + 1, l, isLastName =>
    if l = [] then []
    else if detectScriptStr l ≠ .latin ∧ detectScriptStr l ≠ .unknown then l
    else if '-' ∈ l then
      joinSep '-' ((splitOnChar '-' l).map (fun part => pcFuel fuel part isLastName))
    else if (startsWithSeq (lowerStr l) "mc".data ∨ startsWithSeq (lowerStr l) "mac".data) ∧
            l.length > 3 then
      let k := if startsWithSeq (lowerStr l) "mac".data then 3 else 2
      capWord (l.take k) ++ capWord (l.drop k)
    else if startsWithSeq (lowerStr l) "o'".data ∧ l.length > 2 then
      match l.drop 2 with
      | [] => l
      | c :: rest => 'O' :: '\'' :: jsToUpper c :: rest.map jsToLower
    else if '\'' ∈ l ∧ ¬ startsWithSeq (lowerStr l) "o'".data ∧
            (splitOnChar '\'' l).length ≥ 2 then
      let parts := splitOnChar '\'' l
      capWord (parts.headD []) ++ '\'' :: capWord (parts.getD 1 [])
    else
      match particleHit l with
      | some (_, true) => if isLastName then capWord l else lowerStr l
      | some (p, false) =>
        let particlePart := if isLastName then capWord p.data else lowerStr p.data
        particlePart ++ ' ' :: pcFuel fuel (l.drop (p.length + 1)) isLastName
      | none =>
        if '\'' ∈ l then
          let parts := splitOnChar '\'' l
          capWord (parts.headD []) ++ '\'' :: capWord (parts.getD 1 [])
        else capWord l

/-- `properCapitalize` on strings (canonical fuel). -/
def properCapitalize (name : String) (isLastName : Bool) : String :=
  ⟨pcFuel (name.data.length + 1) name.data isLastName⟩

/-- `properCapitalize` on a character list, with the canonical fuel. -/
def pcL (l : Str) (b : Bool) : Str := pcFuel (l.length + 1) l b

inductive Confidence where
  | high
  | medium
  | low
deriving DecidableEq, Repr

/-- The `NameValidation` record of the source.  `sanitized` is the one
    optional field of the TypeScript interface (`sanitized?: string`). -/
structure NameValidation where
  original : String
  sanitized : Option String
  firstName : String
  lastName : String
  middleName : String
  honorific : String
  suffix : String
  script : Script
  potentialIssues : List String
  confidenceLevel : Confidence
  isCommaFormat : Bool
deriving DecidableEq, Repr

/-- The early return of `validateName` for null/undefined/empty input
    (`original: input || ''`, and no `sanitized` field is set). -/
def nullResult : NameValidation :=
  { original := "", sanitized := none, firstName := "", lastName := "", middleName := "",
    honorific := "", suffix := "", script := .unknown,
    potentialIssues := ["Null or empty name"], confidenceLevel := .low,
    isCommaFormat := false }

/-- The space-token phase of `validateName`: honorific strip, suffix strip,
    then the 0/1/2/3+-token split.  `processedName` is the local variable of
    the same name in the source (the pre-repair sanitized string). -/
def tokensPhase (processedName : String) (r : NameValidation) : NameValidation :=
  let components := (splitOnChar ' ' processedName.data).filter (fun p => p ≠ [])
  let hasHonorific : Bool := components.length > 1 &&
    HONORIFICS.any (fun h => h.data = stripTrailingDot (lowerStr (components.headD [])))
  let r1 := if hasHonorific then
      { r with honorific := properCapitalize ⟨components.headD []⟩ false }
    else r
  let remaining1 := if hasHonorific then components.tail else components
  let lastComponent :=
    (stripTrailingDot (lowerStr (components.getLastD []))).filter (fun c => c ≠ ',')
  let suffixHit : Bool := components.length > 1 &&
    (SUFFIXES.any (fun sfx => sfx.data = lastComponent) ||
     startsWithSeq lastComponent "jr".data || startsWithSeq lastComponent "sr".data)
  let r2 := if suffixHit then { r1 with suffix := (⟨upperStr lastComponent⟩ : String) } else r1
  let remaining := if suffixHit then remaining1.dropLast else remaining1
  if remaining.length = 0 then
    { r2 with
      potentialIssues := r2.potentialIssues ++ ["Name consists of only honorifics/suffixes"],
      confidenceLevel := .low }
  else if remaining.length = 1 then
    { r2 with firstName := properCapitalize ⟨remaining.headD []⟩ false,
              potentialIssues := r2.potentialIssues ++ ["Only a single name was provided"],
              confidenceLevel := .medium }
  else if remaining.length = 2 then
    { r2 with firstName := properCapitalize ⟨remaining.headD []⟩ false,
              lastName := properCapitalize ⟨remaining.getD 1 []⟩ true }
  else
    { r2 with firstName := properCapitalize ⟨remaining.headD []⟩ false,
              lastName := properCapitalize ⟨remaining.getLastD []⟩ true,
              middleName := (⟨joinSep ' '
                (((remaining.drop 1).dropLast).map
                  (fun w => (properCapitalize ⟨w⟩ false).data))⟩ : String) }

/-- The comma-format branch of `validateName` (falling back to the space
    tokenizer when no comma is present).  `split(',')` splits on every
    comma; only `parts[0]` and `parts[1]` are consulted. -/
def commaTokens (sanitizedName : String) (r : NameValidation) : NameValidation :=
  if ',' ∈ sanitizedName.data then
    let parts := (splitOnChar ',' sanitizedName.data).map jsTrim
    let r1 := { r with isCommaFormat := true, lastName := (⟨parts.headD []⟩ : String) }
    let r2 :=
      if parts.length > 1 then
        let remainingParts := (splitOnChar ' ' (parts.getD 1 [])).filter (fun p => p ≠ [])
        if remainingParts.length = 1 then
          { r1 with firstName := (⟨remainingParts.headD []⟩ : String) }
        else if remainingParts.length > 1 then
          { r1 with firstName := (⟨remainingParts.headD []⟩ : String),
                    middleName := (⟨joinSep ' ' remainingParts.tail⟩ : String) }
        else r1
      else r1
    let r3 := { r2 with lastName := properCapitalize r2.lastName true,
                        firstName := properCapitalize r2.firstName false }
    if r3.middleName ≠ "" then { r3 with middleName := properCapitalize r3.middleName false }
    else r3
  else tokensPhase sanitizedName r

/-- The placeholder/test check of `validateName` (step acting on the
    accumulated result). -/
def stepSuspicious (sanitizedName : String) (r : NameValidation) : NameValidation :=
  if SUSPICIOUS_NAMES.any
      (fun fake => hasSeq (lowerStr fake.data) (lowerStr sanitizedName.data)) then
    { r with potentialIssues := r.potentialIssues ++ ["Name may be a test or placeholder"],
             confidenceLevel := .low }
  else r

/-- The security-pattern check of `validateName`. -/
def stepSecurity (sanitizedName : String) (r : NameValidation) : NameValidation :=
  if containsSecurityThreat (some sanitizedName) then
    { r with potentialIssues := r.potentialIssues ++ ["Name may contain code or SQL patterns"],
             confidenceLevel := .low }
  else r

/-- The encoding-repair step of `validateName`: on `encoding-issue` script it
    flags the damage and, when the fixed string differs, overwrites the
    stored `sanitized` value — note that only `result.sanitized` changes; the
    local `sanitizedName` used downstream is not reassigned. -/
def stepEncoding (sanitizedName : String) (r : NameValidation) : NameValidation :=
  if r.script = .encodingIssue then
    let re := { r with
      potentialIssues := r.potentialIssues ++ ["Character encoding issues detected"],
      confidenceLevel := .low }
    let fixedName : String := ⟨fixEncoding sanitizedName.data⟩
    if fixedName ≠ sanitizedName then
      { re with sanitized := some fixedName,
                potentialIssues := re.potentialIssues ++ ["Attempted to fix encoding issues"] }
    else re
  else r

/-- The non-Latin dispatch of `validateName`: spaceless-convention scripts
    return directly; other non-Latin scripts add a caveat, force `medium`
    and fall through to the comma/token logic; Latin falls through as-is. -/
def scriptPhase (sanitizedName : String) (r : NameValidation) : NameValidation :=
  if r.script ≠ .latin ∧ r.script ≠ .unknown ∧ r.script ≠ .encodingIssue then
    if r.script = .han ∨ r.script = .hiragana ∨ r.script = .katakana ∨
       r.script = .thai then
      if ' ' ∈ sanitizedName.data then
        let parts := splitOnChar ' ' sanitizedName.data
        { r with firstName := (⟨parts.headD []⟩ : String),
                 lastName := (⟨joinSep ' ' parts.tail⟩ : String),
                 confidenceLevel := .medium }
      else
        { r with lastName := sanitizedName,
                 potentialIssues := r.potentialIssues ++
                   ["Non-Latin name without spaces - assuming entire name is family name"],
                 confidenceLevel := .medium }
    else
      commaTokens sanitizedName
        { r with potentialIssues := r.potentialIssues ++
                   ["Non-Latin script detected - name splitting might be incorrect"],
                 confidenceLevel := .medium }
  else
    commaTokens sanitizedName r

/-- The sanitized string computed at the top of `validateName`:
    `String(input).trim()` followed by `replace(/\s+/g, ' ')`. -/
def sanitizedOf (s : String) : String := ⟨collapseWs (jsTrim s.data)⟩

/-- The freshly initialized result object of `validateName`. -/
def baseResult (s : String) (sanitizedName : String) : NameValidation :=
  { original := s, sanitized := some sanitizedName, firstName := "", lastName := "",
    middleName := "", honorific := "", suffix := "",
    script := detectScript (some sanitizedName),
    potentialIssues := [], confidenceLevel := .high, isCommaFormat := false }

/-- `validateName`. -/
def validateName (input : Option String) : NameValidation :=
  match input with
  | none => nullResult
  | some s =>
    if s = "" then nullResult
    else
      let sanitizedName : String := sanitizedOf s
      if sanitizedName = "" then
        { baseResult s sanitizedName with
          potentialIssues := (baseResult s sanitizedName).potentialIssues ++
            ["Empty name after sanitization"],
          confidenceLevel := .low }
      else
        scriptPhase sanitizedName
          (stepEncoding sanitizedName
            (stepSecurity sanitizedName
              (stepSuspicious sanitizedName (baseResult s sanitizedName))))

/-- The projection of a processed row that `filterProblemNames` consults:
    the `Confidence`, `Script` and `Issues` columns written by `processCSV`
    (`Issues` is only written when the issue list is non-empty). -/
structure OutRow where
  confidence : String
  script : String
  issues : Option String
deriving DecidableEq, Repr

def confidenceToString : Confidence → String
  | .high => "high"
  | .medium => "medium"
  | .low => "low"

def scriptToString : Script → String
  | .latin => "latin"
  | .cyrillic => "cyrillic"
  | .devanagari => "devanagari"
  | .arabic => "arabic"
  | .han => "han"
  | .hiragana => "hiragana"
  | .katakana => "katakana"
  | .hangul => "hangul"
  | .thai => "thai"
  | .nonLatin => "non-latin"
  | .encodingIssue => "encoding-issue"
  | .unknown => "unknown"

/-- How `processCSV` writes the row columns consulted by the filter. -/
def rowOfValidation (v : NameValidation) : OutRow :=
  { confidence := confidenceToString v.confidenceLevel,
    script := scriptToString v.script,
    issues := if v.potentialIssues = [] then none
              else some (⟨List.intercalate "; ".data (v.potentialIssues.map String.data)⟩ : String) }

/-- The row predicate of `filterProblemNames`: `true` keeps the row. -/
def keepRow (row : OutRow) : Bool :=
  if row.confidence = "high" ∨ row.confidence = "medium" then true
  else if row.script ≠ "latin" ∧ row.script ≠ "unknown" then true
  else
    match row.issues with
    | some is =>
      if hasSeq "security".data is.data ∨ hasSeq "SQL".data is.data ∨
         hasSeq "code".data is.data ∨ hasSeq "test".data is.data ∨
         hasSeq "placeholder".data is.data ∨ hasSeq "Null".data is.data then false
      else true
    | none => true

/-- `filterProblemNames`. -/
def filterProblemNames (rows : List OutRow) : List OutRow := rows.filter keepRow

def isQuoteChar (c : Char) : Bool := c = '"' ∨ c = '\''

/-- Modelled from the spec (claim C3's description of sanitization, for
    comparison with the code): whitespace runs collapsed, trimmed, and
    leading/trailing quote characters stripped. -/
def specSanitize (s : String) : String :=
  ⟨(((collapseWs (jsTrim s.data)).dropWhile isQuoteChar).reverse.dropWhile
      isQuoteChar).reverse⟩

/-- The issue strings a placeholder/security/encoding step can add. -/
def stepIssueSet : List String :=
  ["Name may be a test or placeholder", "Name may contain code or SQL patterns",
   "Character encoding issues detected", "Attempted to fix encoding issues"]

/-! ## Frame lemmas for the two decomposition stages -/

theorem tokensPhase_frame (p : String) (r : NameValidation) :
    (tokensPhase p r).original = r.original ∧
    (tokensPhase p r).sanitized = r.sanitized ∧
    (tokensPhase p r).script = r.script ∧
    (tokensPhase p r).isCommaFormat = r.isCommaFormat := by
  simp only [tokensPhase]
  split_ifs <;> simp

@[simp] theorem tokensPhase_original (p : String) (r : NameValidation) :
    (tokensPhase p r).original = r.original := (tokensPhase_frame p r).1

@[simp] theorem tokensPhase_sanitized (p : String) (r : NameValidation) :
    (tokensPhase p r).sanitized = r.sanitized := (tokensPhase_frame p r).2.1

@[simp] theorem tokensPhase_script (p : String) (r : NameValidation) :
    (tokensPhase p r).script = r.script := (tokensPhase_frame p r).2.2.1

@[simp] theorem tokensPhase_isCommaFormat (p : String) (r : NameValidation) :
    (tokensPhase p r).isCommaFormat = r.isCommaFormat := (tokensPhase_frame p r).2.2.2

/-- In the token phase, the issue list and confidence either stay unchanged,
    or gain the honorifics-only issue with confidence forced `low`, or gain
    the single-name issue with confidence set (unconditionally) `medium`. -/
theorem tokensPhase_issues_conf (p : String) (r : NameValidation) :
    ((tokensPhase p r).potentialIssues = r.potentialIssues ∧
     (tokensPhase p r).confidenceLevel = r.confidenceLevel) ∨
    ((tokensPhase p r).potentialIssues
        = r.potentialIssues ++ ["Name consists of only honorifics/suffixes"] ∧
     (tokensPhase p r).confidenceLevel = .low) ∨
    ((tokensPhase p r).potentialIssues
        = r.potentialIssues ++ ["Only a single name was provided"] ∧
     (tokensPhase p r).confidenceLevel = .medium) := by
  simp only [tokensPhase]
  split_ifs <;> simp

theorem commaTokens_frame (sn : String) (r : NameValidation) :
    (commaTokens sn r).original = r.original ∧
    (commaTokens sn r).sanitized = r.sanitized ∧
    (commaTokens sn r).script = r.script := by
  by_cases h : ',' ∈ sn.data
  · simp only [commaTokens, if_pos h]
    split_ifs <;> simp
  · simp only [commaTokens, if_neg h]
    exact ⟨(tokensPhase_frame sn r).1, (tokensPhase_frame sn r).2.1,
      (tokensPhase_frame sn r).2.2.1⟩

@[simp] theorem commaTokens_original (sn : String) (r : NameValidation) :
    (commaTokens sn r).original = r.original := (commaTokens_frame sn r).1

@[simp] theorem commaTokens_sanitized (sn : String) (r : NameValidation) :
    (commaTokens sn r).sanitized = r.sanitized := (commaTokens_frame sn r).2.1

@[simp] theorem commaTokens_script (sn : String) (r : NameValidation) :
    (commaTokens sn r).script = r.script := (commaTokens_frame sn r).2.2

theorem commaTokens_issues_conf (sn : String) (r : NameValidation) :
    ((commaTokens sn r).potentialIssues = r.potentialIssues ∧
     (commaTokens sn r).confidenceLevel = r.confidenceLevel) ∨
    ((commaTokens sn r).potentialIssues
        = r.potentialIssues ++ ["Name consists of only honorifics/suffixes"] ∧
     (commaTokens sn r).confidenceLevel = .low) ∨
    ((commaTokens sn r).potentialIssues
        = r.potentialIssues ++ ["Only a single name was provided"] ∧
     (commaTokens sn r).confidenceLevel = .medium) := by
  by_cases h : ',' ∈ sn.data
  · left
    simp only [commaTokens, if_pos h]
    split_ifs <;> simp
  · simp only [commaTokens, if_neg h]
    exact tokensPhase_issues_conf sn r

/-- The comma branch marks `isCommaFormat` exactly when a comma is present
    in the string handed to it; the token phase never changes the flag. -/
theorem commaTokens_isCommaFormat (sn : String) (r : NameValidation) :
    (commaTokens sn r).isCommaFormat = (r.isCommaFormat || decide (',' ∈ sn.data)) := by
  by_cases h : ',' ∈ sn.data
  · simp only [commaTokens, if_pos h]
    split_ifs <;> simp [h]
  · simp only [commaTokens, if_neg h]
    simp [h, (tokensPhase_frame sn r).2.2.2]

/-! ## Shape lemmas for the accumulation steps -/

theorem stepSuspicious_eq (sn : String) (r : NameValidation) :
    stepSuspicious sn r = r ∨
    stepSuspicious sn r =
      { r with potentialIssues := r.potentialIssues ++ ["Name may be a test or placeholder"],
               confidenceLevel := .low } := by
  simp only [stepSuspicious]
  split_ifs <;> simp

theorem stepSecurity_eq (sn : String) (r : NameValidation) :
    stepSecurity sn r = r ∨
    stepSecurity sn r =
      { r with potentialIssues := r.potentialIssues ++ ["Name may contain code or SQL patterns"],
               confidenceLevel := .low } := by
  simp only [stepSecurity]
  split_ifs <;> simp

theorem stepEncoding_eq (sn : String) (r : NameValidation) :
    (r.script ≠ .encodingIssue ∧ stepEncoding sn r = r) ∨
    (r.script = .encodingIssue ∧
      (((⟨fixEncoding sn.data⟩ : String) = sn ∧
        stepEncoding sn r =
        { r with potentialIssues := r.potentialIssues ++ ["Character encoding issues detected"],
                 confidenceLevel := .low }) ∨
       ((⟨fixEncoding sn.data⟩ : String) ≠ sn ∧
        stepEncoding sn r =
        { r with sanitized := some (⟨fixEncoding sn.data⟩ : String),
                 potentialIssues := r.potentialIssues ++
                   ["Character encoding issues detected", "Attempted to fix encoding issues"],
                 confidenceLevel := .low }))) := by
  simp only [stepEncoding]
  split_ifs <;> simp_all

theorem scriptPhase_eq (sn : String) (r : NameValidation) :
    ((r.script = .han ∨ r.script = .hiragana ∨ r.script = .katakana ∨ r.script = .thai) ∧
      (scriptPhase sn r =
        { r with firstName := (⟨(splitOnChar ' ' sn.data).headD []⟩ : String),
                 lastName := (⟨joinSep ' ' (splitOnChar ' ' sn.data).tail⟩ : String),
                 confidenceLevel := .medium } ∨
       scriptPhase sn r =
        { r with lastName := sn,
                 potentialIssues := r.potentialIssues ++
                   ["Non-Latin name without spaces - assuming entire name is family name"],
                 confidenceLevel := .medium })) ∨
    (r.script ≠ .latin ∧ r.script ≠ .unknown ∧ r.script ≠ .encodingIssue ∧
     r.script ≠ .han ∧ r.script ≠ .hiragana ∧ r.script ≠ .katakana ∧ r.script ≠ .thai ∧
      scriptPhase sn r = commaTokens sn
        { r with potentialIssues := r.potentialIssues ++
                   ["Non-Latin script detected - name splitting might be incorrect"],
                 confidenceLevel := .medium }) ∨
    ((r.script = .latin ∨ r.script = .unknown ∨ r.script = .encodingIssue) ∧
      scriptPhase sn r = commaTokens sn r) := by
  simp only [scriptPhase]
  split_ifs <;> simp_all
  all_goals tauto

/-! ## Frame projections for the steps -/

theorem stepSuspicious_proj (sn : String) (r : NameValidation) :
    (stepSuspicious sn r).original = r.original ∧
    (stepSuspicious sn r).sanitized = r.sanitized ∧
    (stepSuspicious sn r).script = r.script ∧
    (stepSuspicious sn r).isCommaFormat = r.isCommaFormat ∧
    (stepSuspicious sn r).honorific = r.honorific ∧
    (stepSuspicious sn r).suffix = r.suffix ∧
    (stepSuspicious sn r).firstName = r.firstName ∧
    (stepSuspicious sn r).lastName = r.lastName ∧
    (stepSuspicious sn r).middleName = r.middleName := by
  rcases stepSuspicious_eq sn r with h | h <;> rw [h] <;> simp

theorem stepSecurity_proj (sn : String) (r : NameValidation) :
    (stepSecurity sn r).original = r.original ∧
    (stepSecurity sn r).sanitized = r.sanitized ∧
    (stepSecurity sn r).script = r.script ∧
    (stepSecurity sn r).isCommaFormat = r.isCommaFormat ∧
    (stepSecurity sn r).honorific = r.honorific ∧
    (stepSecurity sn r).suffix = r.suffix ∧
    (stepSecurity sn r).firstName = r.firstName ∧
    (stepSecurity sn r).lastName = r.lastName ∧
    (stepSecurity sn r).middleName = r.middleName := by
  rcases stepSecurity_eq sn r with h | h <;> rw [h] <;> simp

theorem stepEncoding_proj (sn : String) (r : NameValidation) :
    (stepEncoding sn r).original = r.original ∧
    (stepEncoding sn r).script = r.script ∧
    (stepEncoding sn r).isCommaFormat = r.isCommaFormat ∧
    (stepEncoding sn r).honorific = r.honorific ∧
    (stepEncoding sn r).suffix = r.suffix ∧
    (stepEncoding sn r).firstName = r.firstName ∧
    (stepEncoding sn r).lastName = r.lastName ∧
    (stepEncoding sn r).middleName = r.middleName := by
  rcases stepEncoding_eq sn r with ⟨_, h⟩ | ⟨_, ⟨_, h⟩ | ⟨_, h⟩⟩ <;> rw [h] <;> simp

@[simp] theorem stepSuspicious_original (sn : String) (r : NameValidation) :
    (stepSuspicious sn r).original = r.original := (stepSuspicious_proj sn r).1

@[simp] theorem stepSuspicious_sanitized (sn : String) (r : NameValidation) :
    (stepSuspicious sn r).sanitized = r.sanitized := (stepSuspicious_proj sn r).2.1

@[simp] theorem stepSuspicious_script (sn : String) (r : NameValidation) :
    (stepSuspicious sn r).script = r.script := (stepSuspicious_proj sn r).2.2.1

@[simp] theorem stepSuspicious_isCommaFormat (sn : String) (r : NameValidation) :
    (stepSuspicious sn r).isCommaFormat = r.isCommaFormat := (stepSuspicious_proj sn r).2.2.2.1

@[simp] theorem stepSuspicious_honorific (sn : String) (r : NameValidation) :
    (stepSuspicious sn r).honorific = r.honorific := (stepSuspicious_proj sn r).2.2.2.2.1

@[simp] theorem stepSuspicious_suffix (sn : String) (r : NameValidation) :
    (stepSuspicious sn r).suffix = r.suffix := (stepSuspicious_proj sn r).2.2.2.2.2.1

@[simp] theorem stepSuspicious_firstName (sn : String) (r : NameValidation) :
    (stepSuspicious sn r).firstName = r.firstName := (stepSuspicious_proj sn r).2.2.2.2.2.2.1

@[simp] theorem stepSuspicious_lastName (sn : String) (r : NameValidation) :
    (stepSuspicious sn r).lastName = r.lastName := (stepSuspicious_proj sn r).2.2.2.2.2.2.2.1

@[simp] theorem stepSuspicious_middleName (sn : String) (r : NameValidation) :
    (stepSuspicious sn r).middleName = r.middleName := (stepSuspicious_proj sn r).2.2.2.2.2.2.2.2

@[simp] theorem stepSecurity_original (sn : String) (r : NameValidation) :
    (stepSecurity sn r).original = r.original := (stepSecurity_proj sn r).1

@[simp] theorem stepSecurity_sanitized (sn : String) (r : NameValidation) :
    (stepSecurity sn r).sanitized = r.sanitized := (stepSecurity_proj sn r).2.1

@[simp] theorem stepSecurity_script (sn : String) (r : NameValidation) :
    (stepSecurity sn r).script = r.script := (stepSecurity_proj sn r).2.2.1

@[simp] theorem stepSecurity_isCommaFormat (sn : String) (r : NameValidation) :
    (stepSecurity sn r).isCommaFormat = r.isCommaFormat := (stepSecurity_proj sn r).2.2.2.1

@[simp] theorem stepSecurity_honorific (sn : String) (r : NameValidation) :
    (stepSecurity sn r).honorific = r.honorific := (stepSecurity_proj sn r).2.2.2.2.1

@[simp] theorem stepSecurity_suffix (sn : String) (r : NameValidation) :
    (stepSecurity sn r).suffix = r.suffix := (stepSecurity_proj sn r).2.2.2.2.2.1

@[simp] theorem stepSecurity_firstName (sn : String) (r : NameValidation) :
    (stepSecurity sn r).firstName = r.firstName := (stepSecurity_proj sn r).2.2.2.2.2.2.1

@[simp] theorem stepSecurity_lastName (sn : String) (r : NameValidation) :
    (stepSecurity sn r).lastName = r.lastName := (stepSecurity_proj sn r).2.2.2.2.2.2.2.1

@[simp] theorem stepSecurity_middleName (sn : String) (r : NameValidation) :
    (stepSecurity sn r).middleName = r.middleName := (stepSecurity_proj sn r).2.2.2.2.2.2.2.2

@[simp] theorem stepEncoding_original (sn : String) (r : NameValidation) :
    (stepEncoding sn r).original = r.original := (stepEncoding_proj sn r).1

@[simp] theorem stepEncoding_script (sn : String) (r : NameValidation) :
    (stepEncoding sn r).script = r.script := (stepEncoding_proj sn r).2.1

@[simp] theorem stepEncoding_isCommaFormat (sn : String) (r : NameValidation) :
    (stepEncoding sn r).isCommaFormat = r.isCommaFormat := (stepEncoding_proj sn r).2.2.1

@[simp] theorem stepEncoding_honorific (sn : String) (r : NameValidation) :
    (stepEncoding sn r).honorific = r.honorific := (stepEncoding_proj sn r).2.2.2.1

@[simp] theorem stepEncoding_suffix (sn : String) (r : NameValidation) :
    (stepEncoding sn r).suffix = r.suffix := (stepEncoding_proj sn r).2.2.2.2.1

@[simp] theorem stepEncoding_firstName (sn : String) (r : NameValidation) :
    (stepEncoding sn r).firstName = r.firstName := (stepEncoding_proj sn r).2.2.2.2.2.1

@[simp] theorem stepEncoding_lastName (sn : String) (r : NameValidation) :
    (stepEncoding sn r).lastName = r.lastName := (stepEncoding_proj sn r).2.2.2.2.2.2.1

@[simp] theorem stepEncoding_middleName (sn : String) (r : NameValidation) :
    (stepEncoding sn r).middleName = r.middleName := (stepEncoding_proj sn r).2.2.2.2.2.2.2

theorem scriptPhase_proj (sn : String) (r : NameValidation) :
    (scriptPhase sn r).original = r.original ∧
    (scriptPhase sn r).sanitized = r.sanitized ∧
    (scriptPhase sn r).script = r.script := by
  rcases scriptPhase_eq sn r with ⟨_, h | h⟩ | ⟨_, _, _, _, _, _, _, h⟩ | ⟨_, h⟩ <;>
    rw [h] <;> simp

@[simp] theorem scriptPhase_original (sn : String) (r : NameValidation) :
    (scriptPhase sn r).original = r.original := (scriptPhase_proj sn r).1

@[simp] theorem scriptPhase_sanitized (sn : String) (r : NameValidation) :
    (scriptPhase sn r).sanitized = r.sanitized := (scriptPhase_proj sn r).2.1

@[simp] theorem scriptPhase_script (sn : String) (r : NameValidation) :
    (scriptPhase sn r).script = r.script := (scriptPhase_proj sn r).2.2

/-! ## Claim theorems -/

/-- C10: for every input, the `original` field of the returned
    `NameValidation` equals the input string exactly (the empty string when
    the input is null or undefined); no later step alters it. -/
theorem C10_original_is_input (input : Option String) :
    (validateName input).original = input.getD "" := by
  match input with
  | none => rfl
  | some s =>
    by_cases hs : s = ""
    · subst hs; rfl
    · simp only [validateName, if_neg hs, Option.getD_some]
      split_ifs <;> simp [baseResult]

/-- Counterexample to C8 as stated: on null/undefined/empty input the early
    return sets no `sanitized` value, so not every field the claim lists is
    present on every input. -/
theorem C8_counterexample :
    (validateName (some "")).sanitized = none ∧ (validateName none).sanitized = none := by
  decide

/-- C8 (amended): `validateName` is total (this embedding is a total Lean
    function, including the recursive capitalization, which consumes fuel
    bounded by the string length), and every field is set on every result,
    except that `sanitized` is absent exactly on the null/undefined/empty
    early return. -/
theorem C8_sanitized_none_iff (input : Option String) :
    (validateName input).sanitized = none ↔ input = none ∨ input = some "" := by
  match input with
  | none => simp [validateName, nullResult]
  | some s =>
    by_cases hs : s = ""
    · subst hs; simp [validateName, nullResult]
    · simp only [validateName, if_neg hs]
      constructor
      · intro h
        exfalso
        revert h
        split_ifs with hempty
        · simp [baseResult]
        · rw [scriptPhase_sanitized]
          rcases stepEncoding_eq (sanitizedOf s)
              (stepSecurity (sanitizedOf s)
                (stepSuspicious (sanitizedOf s) (baseResult s (sanitizedOf s)))) with
            ⟨_, he⟩ | ⟨_, ⟨_, he⟩ | ⟨_, he⟩⟩ <;> rw [he] <;> simp [baseResult]
      · rintro (h | h) <;> simp_all

/-- Counterexample to C3 as stated: the code never strips leading/trailing
    quote characters from the sanitized value. -/
theorem C3_counterexample :
    (validateName (some "\"John Smith\"")).sanitized = some "\"John Smith\"" ∧
    specSanitize "\"John Smith\"" = "John Smith" ∧
    ("\"John Smith\"" : String) ≠ "John Smith" := by
  decide

/-- C3 (amended): for every non-null, non-empty input whose sanitized form
    is not classified as encoding-damaged (so the repair step does not
    rewrite it), the sanitized value is exactly the input trimmed with
    whitespace runs collapsed to single spaces — quotes are not stripped. -/
theorem C3_sanitized_eq (s : String) (hs : s ≠ "")
    (henc : detectScript (some (sanitizedOf s)) ≠ .encodingIssue) :
    (validateName (some s)).sanitized = some (sanitizedOf s) := by
  simp only [validateName, if_neg hs]
  split_ifs with hempty
  · simp [baseResult]
  · rw [scriptPhase_sanitized]
    rcases stepEncoding_eq (sanitizedOf s)
        (stepSecurity (sanitizedOf s)
          (stepSuspicious (sanitizedOf s) (baseResult s (sanitizedOf s)))) with
      ⟨_, he⟩ | ⟨hscript, _⟩
    · rw [he]; simp [baseResult]
    · exfalso
      rw [stepSecurity_script, stepSuspicious_script] at hscript
      exact henc hscript

/-- Witness for C3: a concrete input with excess whitespace. -/
theorem C3_witness :
    (validateName (some " John  Smith ")).sanitized = some "John Smith" :=
  (C3_sanitized_eq " John  Smith " (by decide) (by decide)).trans (by decide)

/-- C7: the script classifier returns `encoding-issue` on any string
    containing U+FFFD (before any script matching), `cyrillic` on any
    non-empty string all of whose code points lie in the Cyrillic block,
    and `unknown` on null and on the empty string. -/
theorem C7_detectScript_priority :
    (∀ s : String, '�' ∈ s.data → detectScript (some s) = .encodingIssue) ∧
    (∀ s : String, s.data ≠ [] → (∀ c ∈ s.data, 0x400 ≤ c.toNat ∧ c.toNat ≤ 0x4FF) →
      detectScript (some s) = .cyrillic) ∧
    detectScript none = .unknown ∧ detectScript (some "") = .unknown := by
  refine ⟨?_, ?_, rfl, by decide⟩
  · intro s h
    have hne : s.data ≠ [] := by
      intro hh
      rw [hh] at h
      cases h
    have hany : s.data.any (fun c => c.toNat = 0xFFFD) = true := by
      rw [List.any_eq_true]
      exact ⟨'�', h, by decide⟩
    simp [detectScript, detectScriptStr, hne, hany]
  · intro s hne hc
    have h1 : s.data.any (fun c => c.toNat = 0xFFFD) = false := by
      rw [List.any_eq_false]
      intro c hcmem
      have := hc c hcmem
      simp only [decide_eq_true_eq]
      omega
    have h2 : s.data.any isCyrillicChar = true := by
      rcases List.exists_mem_of_ne_nil s.data hne with ⟨c, hcm⟩
      rw [List.any_eq_true]
      refine ⟨c, hcm, ?_⟩
      have := hc c hcm
      simp only [isCyrillicChar, decide_eq_true_eq]
      omega
    simp [detectScript, detectScriptStr, hne, h1, h2]

/-- Witness for C7: encoding damage wins over the Cyrillic characters of
    "Ив�", and an all-Cyrillic string classifies as `cyrillic`. -/
theorem C7_witness :
    detectScript (some "Ив�") = .encodingIssue ∧
    detectScript (some "Иван") = .cyrillic :=
  ⟨C7_detectScript_priority.1 "Ив�" (by decide),
   C7_detectScript_priority.2.1 "Иван" (by decide) (by decide)⟩

/-- Composite behaviour of the placeholder, security and encoding steps. -/
theorem steps_spec (sn : String) (r0 : NameValidation) :
    ∃ L : List String,
      (stepEncoding sn (stepSecurity sn (stepSuspicious sn r0))).potentialIssues
          = r0.potentialIssues ++ L ∧
      (∀ x ∈ L, x ∈ stepIssueSet) ∧
      (L = [] →
        (stepEncoding sn (stepSecurity sn (stepSuspicious sn r0))).confidenceLevel
          = r0.confidenceLevel) ∧
      (L ≠ [] →
        (stepEncoding sn (stepSecurity sn (stepSuspicious sn r0))).confidenceLevel
          = .low) := by
  rcases stepSuspicious_eq sn r0 with h1 | h1
  · rcases stepSecurity_eq sn (stepSuspicious sn r0) with h2 | h2
    · rcases stepEncoding_eq sn (stepSecurity sn (stepSuspicious sn r0)) with
        ⟨_, h3⟩ | ⟨_, ⟨_, h3⟩ | ⟨_, h3⟩⟩
      · rw [h3, h2, h1]
        exact ⟨[], by simp, by decide, by simp, by simp⟩
      · rw [h3, h2, h1]
        exact ⟨["Character encoding issues detected"], by simp, by decide, by simp, by simp⟩
      · rw [h3, h2, h1]
        exact ⟨["Character encoding issues detected", "Attempted to fix encoding issues"], by simp, by decide, by simp, by simp⟩
    · rcases stepEncoding_eq sn (stepSecurity sn (stepSuspicious sn r0)) with
        ⟨_, h3⟩ | ⟨_, ⟨_, h3⟩ | ⟨_, h3⟩⟩
      · rw [h3, h2, h1]
        exact ⟨["Name may contain code or SQL patterns"], by simp, by decide, by simp, by simp⟩
      · rw [h3, h2, h1]
        exact ⟨["Name may contain code or SQL patterns", "Character encoding issues detected"], by simp, by decide, by simp, by simp⟩
      · rw [h3, h2, h1]
        exact ⟨["Name may contain code or SQL patterns", "Character encoding issues detected", "Attempted to fix encoding issues"], by simp, by decide, by simp, by simp⟩
  · rcases stepSecurity_eq sn (stepSuspicious sn r0) with h2 | h2
    · rcases stepEncoding_eq sn (stepSecurity sn (stepSuspicious sn r0)) with
        ⟨_, h3⟩ | ⟨_, ⟨_, h3⟩ | ⟨_, h3⟩⟩
      · rw [h3, h2, h1]
        exact ⟨["Name may be a test or placeholder"], by simp, by decide, by simp, by simp⟩
      · rw [h3, h2, h1]
        exact ⟨["Name may be a test or placeholder", "Character encoding issues detected"], by simp, by decide, by simp, by simp⟩
      · rw [h3, h2, h1]
        exact ⟨["Name may be a test or placeholder", "Character encoding issues detected", "Attempted to fix encoding issues"], by simp, by decide, by simp, by simp⟩
    · rcases stepEncoding_eq sn (stepSecurity sn (stepSuspicious sn r0)) with
        ⟨_, h3⟩ | ⟨_, ⟨_, h3⟩ | ⟨_, h3⟩⟩
      · rw [h3, h2, h1]
        exact ⟨["Name may be a test or placeholder", "Name may contain code or SQL patterns"], by simp, by decide, by simp, by simp⟩
      · rw [h3, h2, h1]
        exact ⟨["Name may be a test or placeholder", "Name may contain code or SQL patterns", "Character encoding issues detected"], by simp, by decide, by simp, by simp⟩
      · rw [h3, h2, h1]
        exact ⟨["Name may be a test or placeholder", "Name may contain code or SQL patterns", "Character encoding issues detected", "Attempted to fix encoding issues"], by simp, by decide, by simp, by simp⟩


theorem validateName_single_medium (input : Option String) :
    "Only a single name was provided" ∈ (validateName input).potentialIssues →
    (validateName input).confidenceLevel = .medium := by
  match input with
  | none => intro h; simp [validateName, nullResult] at h
  | some s =>
    by_cases hs : s = ""
    · subst hs; intro h; simp [validateName, nullResult] at h
    · by_cases hsn : sanitizedOf s = ""
      · intro h
        simp only [validateName, if_neg hs, if_pos hsn] at h
        simp [baseResult] at h
      · intro h
        simp only [validateName, if_neg hs, if_neg hsn] at h ⊢
        obtain ⟨L, hLpI, hLmem, hL0, hL1⟩ :=
          steps_spec (sanitizedOf s) (baseResult s (sanitizedOf s))
        set R := stepEncoding (sanitizedOf s)
          (stepSecurity (sanitizedOf s)
            (stepSuspicious (sanitizedOf s) (baseResult s (sanitizedOf s)))) with hR
        have hRpI : R.potentialIssues = L := by
          rw [hLpI]; simp [baseResult]
        have hsingleL : "Only a single name was provided" ∉ L := by
          intro hx
          have := hLmem _ hx
          simp [stepIssueSet] at this
        rcases scriptPhase_eq (sanitizedOf s) R with
          ⟨hscr, hsp | hsp⟩ | ⟨_, _, _, _, _, _, _, hsp⟩ | ⟨hscr, hsp⟩
        · rw [hsp]
        · rw [hsp]
        · rw [hsp] at h ⊢
          rcases commaTokens_issues_conf (sanitizedOf s) { R with potentialIssues := R.potentialIssues ++ ["Non-Latin script detected - name splitting might be incorrect"], confidenceLevel := Confidence.medium } with
            ⟨hpI, hconf⟩ | ⟨hpI, hconf⟩ | ⟨hpI, hconf⟩
          · rw [hconf]
          · rw [hpI] at h
            simp [hRpI, hsingleL] at h
          · exact hconf
        · rw [hsp] at h ⊢
          rcases commaTokens_issues_conf (sanitizedOf s) R with
            ⟨hpI, hconf⟩ | ⟨hpI, hconf⟩ | ⟨hpI, hconf⟩
          · rw [hpI] at h
            simp [hRpI, hsingleL] at h
          · rw [hpI] at h
            simp [hRpI, hsingleL] at h
          · exact hconf


theorem validateName_low_of_empty_issue (input : Option String) :
    ("Null or empty name" ∈ (validateName input).potentialIssues ∨
     "Empty name after sanitization" ∈ (validateName input).potentialIssues) →
    (validateName input).confidenceLevel = .low := by
  match input with
  | none => intro _; rfl
  | some s =>
    by_cases hs : s = ""
    · subst hs; intro _; rfl
    · by_cases hsn : sanitizedOf s = ""
      · intro _
        simp only [validateName, if_neg hs, if_pos hsn]
      · intro h
        simp only [validateName, if_neg hs, if_neg hsn] at h ⊢
        obtain ⟨L, hLpI, hLmem, hL0, hL1⟩ :=
          steps_spec (sanitizedOf s) (baseResult s (sanitizedOf s))
        set R := stepEncoding (sanitizedOf s)
          (stepSecurity (sanitizedOf s)
            (stepSuspicious (sanitizedOf s) (baseResult s (sanitizedOf s)))) with hR
        have hRpI : R.potentialIssues = L := by
          rw [hLpI]; simp [baseResult]
        have hnullL : "Null or empty name" ∉ L := by
          intro hx
          have := hLmem _ hx
          simp [stepIssueSet] at this
        have hemptyL : "Empty name after sanitization" ∉ L := by
          intro hx
          have := hLmem _ hx
          simp [stepIssueSet] at this
        rcases scriptPhase_eq (sanitizedOf s) R with
          ⟨hscr, hsp | hsp⟩ | ⟨_, _, _, _, _, _, _, hsp⟩ | ⟨hscr, hsp⟩
        · rw [hsp] at h
          simp [hRpI, hnullL, hemptyL] at h
        · rw [hsp] at h
          simp [hRpI, hnullL, hemptyL] at h
        · rw [hsp] at h
          rcases commaTokens_issues_conf (sanitizedOf s) { R with potentialIssues := R.potentialIssues ++ ["Non-Latin script detected - name splitting might be incorrect"], confidenceLevel := Confidence.medium } with
            ⟨hpI, _⟩ | ⟨hpI, _⟩ | ⟨hpI, _⟩ <;> rw [hpI] at h <;>
            simp [hRpI, hnullL, hemptyL] at h
        · rw [hsp] at h
          rcases commaTokens_issues_conf (sanitizedOf s) R with
            ⟨hpI, _⟩ | ⟨hpI, _⟩ | ⟨hpI, _⟩ <;> rw [hpI] at h <;>
            simp [hRpI, hnullL, hemptyL] at h

theorem validateName_low_of_flag (input : Option String) :
    (("Name may be a test or placeholder" ∈ (validateName input).potentialIssues ∨
      "Name may contain code or SQL patterns" ∈ (validateName input).potentialIssues) ∧
     (validateName input).script ≠ .han ∧ (validateName input).script ≠ .hiragana ∧
     (validateName input).script ≠ .katakana ∧ (validateName input).script ≠ .thai ∧
     "Non-Latin script detected - name splitting might be incorrect"
        ∉ (validateName input).potentialIssues ∧
     "Only a single name was provided" ∉ (validateName input).potentialIssues) →
    (validateName input).confidenceLevel = .low := by
  match input with
  | none => decide
  | some s =>
    by_cases hs : s = ""
    · subst hs; decide
    · by_cases hsn : sanitizedOf s = ""
      · intro _
        simp only [validateName, if_neg hs, if_pos hsn]
      · intro h
        obtain ⟨hps, hh1, hh2, hh3, hh4, hcav, hsing⟩ := h
        simp only [validateName, if_neg hs, if_neg hsn] at hps hh1 hh2 hh3 hh4 hcav hsing ⊢
        obtain ⟨L, hLpI, hLmem, hL0, hL1⟩ :=
          steps_spec (sanitizedOf s) (baseResult s (sanitizedOf s))
        set R := stepEncoding (sanitizedOf s)
          (stepSecurity (sanitizedOf s)
            (stepSuspicious (sanitizedOf s) (baseResult s (sanitizedOf s)))) with hR
        have hRpI : R.potentialIssues = L := by
          rw [hLpI]; simp [baseResult]
        rcases scriptPhase_eq (sanitizedOf s) R with
          ⟨hscr, hsp | hsp⟩ | ⟨_, _, _, _, _, _, _, hsp⟩ | ⟨hscr, hsp⟩
        · rw [hsp] at hh1 hh2 hh3 hh4
          simp only [] at hh1 hh2 hh3 hh4
          rcases hscr with e | e | e | e
          exacts [absurd e hh1, absurd e hh2, absurd e hh3, absurd e hh4]
        · rw [hsp] at hh1 hh2 hh3 hh4
          simp only [] at hh1 hh2 hh3 hh4
          rcases hscr with e | e | e | e
          exacts [absurd e hh1, absurd e hh2, absurd e hh3, absurd e hh4]
        · rw [hsp] at hcav
          rcases commaTokens_issues_conf (sanitizedOf s) { R with potentialIssues := R.potentialIssues ++ ["Non-Latin script detected - name splitting might be incorrect"], confidenceLevel := Confidence.medium } with
            ⟨hpI, _⟩ | ⟨hpI, _⟩ | ⟨hpI, _⟩ <;> rw [hpI] at hcav <;>
            simp [hRpI] at hcav
        · rw [hsp] at hps hsing ⊢
          rcases commaTokens_issues_conf (sanitizedOf s) R with
            ⟨hpI, hconf⟩ | ⟨hpI, hconf⟩ | ⟨hpI, hconf⟩
          · rw [hpI] at hps
            simp only [hRpI] at hps
            have hLne : L ≠ [] := by
              rintro rfl
              simp at hps
            rw [hconf]
            exact hL1 hLne
          · exact hconf
          · rw [hpI] at hsing
            simp [hRpI] at hsing

theorem validateName_high_of_no_issue (input : Option String) :
    ((validateName input).potentialIssues = [] ∧
     (validateName input).script ≠ .han ∧ (validateName input).script ≠ .hiragana ∧
     (validateName input).script ≠ .katakana ∧ (validateName input).script ≠ .thai) →
    (validateName input).confidenceLevel = .high := by
  match input with
  | none => decide
  | some s =>
    by_cases hs : s = ""
    · subst hs; decide
    · by_cases hsn : sanitizedOf s = ""
      · intro h
        obtain ⟨hpI, _⟩ := h
        simp only [validateName, if_neg hs, if_pos hsn] at hpI
        simp [baseResult] at hpI
      · intro h
        obtain ⟨hpI, hh1, hh2, hh3, hh4⟩ := h
        simp only [validateName, if_neg hs, if_neg hsn] at hpI hh1 hh2 hh3 hh4 ⊢
        obtain ⟨L, hLpI, hLmem, hL0, hL1⟩ :=
          steps_spec (sanitizedOf s) (baseResult s (sanitizedOf s))
        set R := stepEncoding (sanitizedOf s)
          (stepSecurity (sanitizedOf s)
            (stepSuspicious (sanitizedOf s) (baseResult s (sanitizedOf s)))) with hR
        have hRpI : R.potentialIssues = L := by
          rw [hLpI]; simp [baseResult]
        rcases scriptPhase_eq (sanitizedOf s) R with
          ⟨hscr, hsp | hsp⟩ | ⟨_, _, _, _, _, _, _, hsp⟩ | ⟨hscr, hsp⟩
        · rw [hsp] at hh1 hh2 hh3 hh4
          simp only [] at hh1 hh2 hh3 hh4
          rcases hscr with e | e | e | e
          exacts [absurd e hh1, absurd e hh2, absurd e hh3, absurd e hh4]
        · rw [hsp] at hpI
          simp [hRpI] at hpI
        · rw [hsp] at hpI
          rcases commaTokens_issues_conf (sanitizedOf s) { R with potentialIssues := R.potentialIssues ++ ["Non-Latin script detected - name splitting might be incorrect"], confidenceLevel := Confidence.medium } with
            ⟨hpI2, _⟩ | ⟨hpI2, _⟩ | ⟨hpI2, _⟩ <;> rw [hpI2] at hpI <;>
            simp [hRpI] at hpI
        · rw [hsp] at hpI ⊢
          rcases commaTokens_issues_conf (sanitizedOf s) R with
            ⟨hpI2, hconf⟩ | ⟨hpI2, hconf⟩ | ⟨hpI2, hconf⟩
          · rw [hpI2] at hpI
            simp only [hRpI] at hpI
            rw [hconf, hL0 hpI]
            simp [baseResult]
          · rw [hpI2] at hpI
            simp [hRpI] at hpI
          · rw [hpI2] at hpI
            simp [hRpI] at hpI

/-- Counterexample to C1 as stated: "test" carries the placeholder issue,
    yet the single-token step later overwrites the forced `low` with
    `medium` unconditionally. -/
theorem C1_counterexample :
    (validateName (some "test")).potentialIssues =
      ["Name may be a test or placeholder", "Only a single name was provided"] ∧
    (validateName (some "test")).confidenceLevel = .medium ∧
    Confidence.medium ≠ Confidence.low := by
  decide

/-- C1 (amended): the empty-input issues always come with `low` confidence;
    the single-token step sets `medium` unconditionally (even over an
    earlier `low`); a placeholder/security issue forces `low` only when no
    later step overwrote it (no spaceless-script branch, no non-Latin
    caveat, no single-token overwrite); and with no issues at all (and no
    spaceless-script branch) confidence is `high`. -/
theorem C1_confidence_rules (input : Option String) :
    (("Null or empty name" ∈ (validateName input).potentialIssues ∨
      "Empty name after sanitization" ∈ (validateName input).potentialIssues) →
      (validateName input).confidenceLevel = .low) ∧
    ("Only a single name was provided" ∈ (validateName input).potentialIssues →
      (validateName input).confidenceLevel = .medium) ∧
    ((("Name may be a test or placeholder" ∈ (validateName input).potentialIssues ∨
       "Name may contain code or SQL patterns" ∈ (validateName input).potentialIssues) ∧
      (validateName input).script ≠ .han ∧ (validateName input).script ≠ .hiragana ∧
      (validateName input).script ≠ .katakana ∧ (validateName input).script ≠ .thai ∧
      "Non-Latin script detected - name splitting might be incorrect"
         ∉ (validateName input).potentialIssues ∧
      "Only a single name was provided" ∉ (validateName input).potentialIssues) →
      (validateName input).confidenceLevel = .low) ∧
    (((validateName input).potentialIssues = [] ∧
      (validateName input).script ≠ .han ∧ (validateName input).script ≠ .hiragana ∧
      (validateName input).script ≠ .katakana ∧ (validateName input).script ≠ .thai) →
      (validateName input).confidenceLevel = .high) :=
  ⟨validateName_low_of_empty_issue input, validateName_single_medium input,
   validateName_low_of_flag input, validateName_high_of_no_issue input⟩

/-- Witness for C1: the single-token rule at "test" and the
    security-pattern rule at "drop x". -/
theorem C1_confidence_rules_witness :
    (validateName (some "test")).confidenceLevel = .medium ∧
    (validateName (some "drop x")).confidenceLevel = .low :=
  ⟨(C1_confidence_rules (some "test")).2.1 (by decide),
   (C1_confidence_rules (some "drop x")).2.2.1 (by decide)⟩

/-- If the honorific condition of the token phase holds (more than one
    space token, and the first token with its trailing period removed,
    lower-cased, is in the honorific vocabulary), the honorific field is the
    `properCapitalize` of the raw first token. -/
theorem tokensPhase_honorific (p : String) (r : NameValidation)
    (h1 : ((splitOnChar ' ' p.data).filter (fun q => q ≠ [])).length > 1)
    (h2 : HONORIFICS.any (fun h => h.data =
      stripTrailingDot (lowerStr (((splitOnChar ' ' p.data).filter
        (fun q => q ≠ [])).headD []))) = true) :
    (tokensPhase p r).honorific =
      properCapitalize
        (⟨((splitOnChar ' ' p.data).filter (fun q => q ≠ [])).headD []⟩ : String) false := by
  simp only [tokensPhase]
  split_ifs <;> simp_all

/-- Counterexample to C4 as stated: the stored honorific keeps the trailing
    period of the token — `"Dr."`, not `"Dr"` (only the lower-cased
    comparison copy is stripped). -/
theorem C4_counterexample :
    (validateName (some "Dr. Jane Doe Jr")).honorific = "Dr." ∧
    ("Dr." : String) ≠ "Dr" := by
  decide

/-- C4 (amended): `"Dr. Jane Doe Jr"` decomposes to honorific `"Dr."`
    (trailing period retained), firstName `"Jane"`, lastName `"Doe"`,
    suffix `"JR"`; in general, for a Latin non-comma input whose first of
    several tokens matches the honorific vocabulary after removing a
    trailing period, that token is removed and its `properCapitalize` form
    (period retained) is stored as the honorific. -/
theorem C4_honorific_stripping :
    ((validateName (some "Dr. Jane Doe Jr")).honorific = "Dr." ∧
     (validateName (some "Dr. Jane Doe Jr")).firstName = "Jane" ∧
     (validateName (some "Dr. Jane Doe Jr")).lastName = "Doe" ∧
     (validateName (some "Dr. Jane Doe Jr")).suffix = "JR" ∧
     (validateName (some "Dr. Jane Doe Jr")).middleName = "") ∧
    (∀ s : String, s ≠ "" → sanitizedOf s ≠ "" →
      detectScript (some (sanitizedOf s)) = .latin →
      ',' ∉ (sanitizedOf s).data →
      ((splitOnChar ' ' (sanitizedOf s).data).filter (fun q => q ≠ [])).length > 1 →
      HONORIFICS.any (fun h => h.data =
        stripTrailingDot (lowerStr (((splitOnChar ' ' (sanitizedOf s).data).filter
          (fun q => q ≠ [])).headD []))) = true →
      (validateName (some s)).honorific =
        properCapitalize
          (⟨((splitOnChar ' ' (sanitizedOf s).data).filter
              (fun q => q ≠ [])).headD []⟩ : String) false) := by
  refine ⟨by decide, ?_⟩
  intro s hs hsn hlat hnc h1 h2
  simp only [validateName, if_neg hs, if_neg hsn]
  set R := stepEncoding (sanitizedOf s)
    (stepSecurity (sanitizedOf s)
      (stepSuspicious (sanitizedOf s) (baseResult s (sanitizedOf s)))) with hR
  have hRscr : R.script = detectScript (some (sanitizedOf s)) := by
    rw [hR]
    simp [baseResult]
  rcases scriptPhase_eq (sanitizedOf s) R with
    ⟨hscr, _⟩ | ⟨hnl1, _, _, _, _, _, _, _⟩ | ⟨_, hsp⟩
  · exfalso
    rcases hscr with e | e | e | e <;> rw [hRscr, hlat] at e <;> cases e
  · exact absurd (hRscr.trans hlat) hnl1
  · rw [hsp]
    simp only [commaTokens, if_neg hnc]
    exact tokensPhase_honorific (sanitizedOf s) R h1 h2

/-- Witness for C4's general clause at the spec's own example. -/
theorem C4_honorific_stripping_witness :
    (validateName (some "Dr. Jane Doe Jr")).honorific = "Dr." :=
  (C4_honorific_stripping.2 "Dr. Jane Doe Jr" (by decide) (by decide) (by decide)
    (by decide) (by decide) (by decide)).trans (by decide)

/-- Counterexample to C2 as stated: with two commas only `parts[0]` and
    `parts[1]` are consulted, so "Smith, John, Michael" gets an empty
    middle name (the claim requires `"Michael"`). -/
theorem C2_counterexample :
    (validateName (some "Smith, John, Michael")).middleName = "" ∧
    (("" : String) ≠ "Michael") ∧
    (validateName (some "Smith, John, Michael")).isCommaFormat = true := by
  decide

/-- C2 (amended): the spec's example decomposes exactly as stated; the
    comma flag is set iff the sanitized string contains a comma (outside
    the spaceless-script early return); but splitting consults only the
    first two comma-separated parts — text after a second comma is
    discarded. -/
theorem C2_comma_format :
    (validateName (some "Smith, John Michael") =
      { original := "Smith, John Michael", sanitized := some "Smith, John Michael",
        firstName := "John", lastName := "Smith", middleName := "Michael",
        honorific := "", suffix := "", script := .latin, potentialIssues := [],
        confidenceLevel := .high, isCommaFormat := true }) ∧
    (∀ s : String, s ≠ "" → sanitizedOf s ≠ "" →
      detectScript (some (sanitizedOf s)) ≠ .han →
      detectScript (some (sanitizedOf s)) ≠ .hiragana →
      detectScript (some (sanitizedOf s)) ≠ .katakana →
      detectScript (some (sanitizedOf s)) ≠ .thai →
      ((validateName (some s)).isCommaFormat = true ↔ ',' ∈ (sanitizedOf s).data)) ∧
    (validateName (some "Smith, John, Michael")).firstName = "John" ∧
    (validateName (some "Smith, John, Michael")).middleName = "" := by
  refine ⟨by decide, ?_, by decide, by decide⟩
  intro s hs hsn hh1 hh2 hh3 hh4
  simp only [validateName, if_neg hs, if_neg hsn]
  set R := stepEncoding (sanitizedOf s)
    (stepSecurity (sanitizedOf s)
      (stepSuspicious (sanitizedOf s) (baseResult s (sanitizedOf s)))) with hR
  have hRscr : R.script = detectScript (some (sanitizedOf s)) := by
    rw [hR]
    simp [baseResult]
  have hRicf : R.isCommaFormat = false := by
    rw [hR]
    simp [baseResult]
  rcases scriptPhase_eq (sanitizedOf s) R with
    ⟨hscr, _⟩ | ⟨_, _, _, _, _, _, _, hsp⟩ | ⟨_, hsp⟩
  · exfalso
    rcases hscr with e | e | e | e <;> rw [hRscr] at e
    exacts [hh1 e, hh2 e, hh3 e, hh4 e]
  · rw [hsp, commaTokens_isCommaFormat]
    simp [hRicf]
  · rw [hsp, commaTokens_isCommaFormat]
    simp [hRicf]

/-- Witness for C2's general clause at the spec's example. -/
theorem C2_comma_format_witness :
    (validateName (some "Smith, John Michael")).isCommaFormat = true :=
  (C2_comma_format.2.1 "Smith, John Michael" (by decide) (by decide) (by decide)
    (by decide) (by decide) (by decide)).mpr (by decide)

/-- Counterexample to C5 as stated: for "John�" the repaired string "John"
    is stored as the sanitized value, but tokenization still runs on the
    pre-repair string, so firstName keeps the replacement character. -/
theorem C5_counterexample :
    (validateName (some "John�")).sanitized = some "John" ∧
    (validateName (some "John�")).firstName = "John�" ∧
    ("John�" : String) ≠ "John" := by
  decide

/-- C5 (amended): on encoding-damaged input the repaired string is stored
    as the sanitized value, but comma detection (and the decomposition that
    follows it) operates on the pre-repair sanitized string. -/
theorem C5_repair_stored_not_used :
    ((validateName (some "John�")).sanitized = some "John" ∧
     (validateName (some "John�")).firstName = "John�") ∧
    (∀ s : String, s ≠ "" → sanitizedOf s ≠ "" →
      detectScript (some (sanitizedOf s)) = .encodingIssue →
      (validateName (some s)).sanitized =
        some (⟨fixEncoding (sanitizedOf s).data⟩ : String) ∧
      ((validateName (some s)).isCommaFormat = true ↔ ',' ∈ (sanitizedOf s).data)) := by
  refine ⟨by decide, ?_⟩
  intro s hs hsn henc
  simp only [validateName, if_neg hs, if_neg hsn]
  set R := stepEncoding (sanitizedOf s)
    (stepSecurity (sanitizedOf s)
      (stepSuspicious (sanitizedOf s) (baseResult s (sanitizedOf s)))) with hR
  have hRscr : R.script = detectScript (some (sanitizedOf s)) := by
    rw [hR]
    simp [baseResult]
  have hRicf : R.isCommaFormat = false := by
    rw [hR]
    simp [baseResult]
  have hRsan : R.sanitized = some (⟨fixEncoding (sanitizedOf s).data⟩ : String) := by
    rw [hR]
    rcases stepEncoding_eq (sanitizedOf s)
        (stepSecurity (sanitizedOf s)
          (stepSuspicious (sanitizedOf s) (baseResult s (sanitizedOf s)))) with
      ⟨hne, _⟩ | ⟨_, ⟨hfix, he⟩ | ⟨_, he⟩⟩
    · exfalso
      apply hne
      simp [baseResult, henc]
    · rw [he, hfix]
      simp [baseResult]
    · rw [he]
  rcases scriptPhase_eq (sanitizedOf s) R with
    ⟨hscr, _⟩ | ⟨_, _, hnl3, _, _, _, _, _⟩ | ⟨_, hsp⟩
  · exfalso
    rcases hscr with e | e | e | e <;> rw [hRscr, henc] at e <;> cases e
  · exact absurd (hRscr.trans henc) hnl3
  · rw [hsp]
    refine ⟨?_, ?_⟩
    · rw [commaTokens_sanitized]
      exact hRsan
    · rw [commaTokens_isCommaFormat]
      simp [hRicf]

/-- Witness for C5's general clause at "John�". -/
theorem C5_repair_stored_not_used_witness :
    (validateName (some "John�")).sanitized = some "John" :=
  ((C5_repair_stored_not_used.2 "John�" (by decide) (by decide) (by decide)).1).trans
    (by decide)

/-- Strings the filter's `Script` guard treats as Latin-ish. -/
theorem scriptToString_ne (sc : Script) (h1 : sc ≠ .latin) (h2 : sc ≠ .unknown) :
    scriptToString sc ≠ "latin" ∧ scriptToString sc ≠ "unknown" := by
  cases sc <;> simp_all [scriptToString]

/-- Counterexample to C6 as stated: a low-confidence row whose only issue
    is "Empty name after sanitization" matches none of the filter's
    substrings ('security', 'SQL', 'code', 'test', 'placeholder', 'Null'),
    so it is kept, not removed. -/
theorem C6_counterexample :
    (validateName (some " ")).confidenceLevel = .low ∧
    (validateName (some " ")).potentialIssues = ["Empty name after sanitization"] ∧
    keepRow (rowOfValidation (validateName (some " "))) = true := by
  decide

/-- C6 (amended): the filter removes exactly the rows with low confidence,
    Latin/unknown script, and an Issues string containing one of the six
    literal substrings; high/medium-confidence rows and non-Latin-script
    rows are always kept; the null-input issue matches 'Null' and is
    removed, while "Empty name after sanitization" matches nothing and is
    retained. -/
theorem C6_filter_rules :
    (∀ row : OutRow, keepRow row = false ↔
      (row.confidence ≠ "high" ∧ row.confidence ≠ "medium" ∧
       (row.script = "latin" ∨ row.script = "unknown") ∧
       ∃ msg, row.issues = some msg ∧
         (hasSeq "security".data msg.data = true ∨ hasSeq "SQL".data msg.data = true ∨
          hasSeq "code".data msg.data = true ∨ hasSeq "test".data msg.data = true ∨
          hasSeq "placeholder".data msg.data = true ∨
          hasSeq "Null".data msg.data = true))) ∧
    (∀ rows row, row ∈ filterProblemNames rows ↔ row ∈ rows ∧ keepRow row = true) ∧
    (∀ input, ((validateName input).confidenceLevel = .high ∨
               (validateName input).confidenceLevel = .medium) →
      keepRow (rowOfValidation (validateName input)) = true) ∧
    (∀ input, (validateName input).script ≠ .latin →
      (validateName input).script ≠ .unknown →
      keepRow (rowOfValidation (validateName input)) = true) ∧
    keepRow (rowOfValidation (validateName none)) = false := by
  refine ⟨?_, ?_, ?_, ?_, by decide⟩
  · intro row
    rcases row with ⟨conf, scr, iss⟩
    rcases iss with _ | msg <;> simp only [keepRow] <;> split_ifs <;> simp_all <;> tauto
  · intro rows row
    simp [filterProblemNames, List.mem_filter]
  · intro input h
    rcases h with h | h <;>
      simp [keepRow, rowOfValidation, h, confidenceToString]
  · intro input h1 h2
    obtain ⟨hne1, hne2⟩ := scriptToString_ne _ h1 h2
    simp only [keepRow, rowOfValidation]
    split_ifs with ha hb <;>
      first
        | rfl
        | exact absurd ⟨hne1, hne2⟩ hb

/-- Witness for C6: a clean high-confidence row and a Cyrillic row are
    both kept. -/
theorem C6_filter_rules_witness :
    keepRow (rowOfValidation (validateName (some "John Smith"))) = true ∧
    keepRow (rowOfValidation (validateName (some "Иван Иванов"))) = true :=
  ⟨C6_filter_rules.2.2.1 (some "John Smith") (Or.inl (by decide)),
   C6_filter_rules.2.2.2.1 (some "Иван Иванов") (by decide) (by decide)⟩

/-! ## Character-level facts for the capitalization proofs -/

theorem toNat_ofNat_of_lt {n : Nat} (h : n < 55296) : (Char.ofNat n).toNat = n := by
  have hv : n.isValidChar := Or.inl h
  simp only [Char.ofNat, dif_pos hv, Char.ofNatAux, Char.toNat, UInt32.toNat]
  simp [BitVec.toNat_ofNat]

theorem char_toNat_inj {a b : Char} (h : a.toNat = b.toNat) : a = b :=
  Char.ext (UInt32.toNat.inj h)

theorem toNat_jsToLower (c : Char) :
    (jsToLower c).toNat =
      if 65 ≤ c.toNat ∧ c.toNat ≤ 90 then c.toNat + 32 else c.toNat := by
  unfold jsToLower
  split_ifs with h
  · exact toNat_ofNat_of_lt (by omega)
  · rfl

theorem toNat_jsToUpper (c : Char) :
    (jsToUpper c).toNat =
      if 97 ≤ c.toNat ∧ c.toNat ≤ 122 then c.toNat - 32 else c.toNat := by
  unfold jsToUpper
  split_ifs with h
  · exact toNat_ofNat_of_lt (by omega)
  · rfl

theorem jsToLower_jsToLower (c : Char) : jsToLower (jsToLower c) = jsToLower c := by
  apply char_toNat_inj
  simp only [toNat_jsToLower]
  split_ifs <;> omega

theorem jsToLower_jsToUpper (c : Char) : jsToLower (jsToUpper c) = jsToLower c := by
  apply char_toNat_inj
  simp only [toNat_jsToLower, toNat_jsToUpper]
  split_ifs <;> omega

theorem jsToUpper_jsToUpper (c : Char) : jsToUpper (jsToUpper c) = jsToUpper c := by
  apply char_toNat_inj
  simp only [toNat_jsToUpper]
  split_ifs <;> omega

theorem jsToLower_ascii {c : Char} (h : c.toNat ≤ 127) : (jsToLower c).toNat ≤ 127 := by
  rw [toNat_jsToLower]
  split_ifs <;> omega

theorem jsToUpper_ascii {c : Char} (h : c.toNat ≤ 127) : (jsToUpper c).toNat ≤ 127 := by
  rw [toNat_jsToUpper]
  split_ifs <;> omega

/-- Case maps fix characters that are letters in neither case, so equality
    with such a character transfers through them. -/
theorem jsToLower_eq_special {c d : Char}
    (hd1 : ¬(97 ≤ d.toNat ∧ d.toNat ≤ 122)) (hd2 : ¬(65 ≤ d.toNat ∧ d.toNat ≤ 90)) :
    jsToLower c = d ↔ c = d := by
  constructor
  · intro h
    apply char_toNat_inj
    have := congrArg Char.toNat h
    rw [toNat_jsToLower] at this
    split_ifs at this <;> omega
  · intro h
    subst h
    apply char_toNat_inj
    rw [toNat_jsToLower]
    split_ifs <;> omega

theorem jsToUpper_eq_special {c d : Char}
    (hd1 : ¬(97 ≤ d.toNat ∧ d.toNat ≤ 122)) (hd2 : ¬(65 ≤ d.toNat ∧ d.toNat ≤ 90)) :
    jsToUpper c = d ↔ c = d := by
  constructor
  · intro h
    apply char_toNat_inj
    have := congrArg Char.toNat h
    rw [toNat_jsToUpper] at this
    split_ifs at this <;> omega
  · intro h
    subst h
    apply char_toNat_inj
    rw [toNat_jsToUpper]
    split_ifs <;> omega

/-! ## String-level facts -/

theorem lowerStr_lowerStr (l : Str) : lowerStr (lowerStr l) = lowerStr l := by
  simp [lowerStr, List.map_map, Function.comp, jsToLower_jsToLower]

theorem length_lowerStr (l : Str) : (lowerStr l).length = l.length := by
  simp [lowerStr]

theorem length_capWord (l : Str) : (capWord l).length = l.length := by
  cases l <;> simp [capWord]

theorem lowerStr_capWord (l : Str) : lowerStr (capWord l) = lowerStr l := by
  cases l with
  | nil => rfl
  | cons c r =>
    simp [capWord, lowerStr, jsToLower_jsToUpper, List.map_map, Function.comp,
      jsToLower_jsToLower]

theorem capWord_capWord (l : Str) : capWord (capWord l) = capWord l := by
  cases l with
  | nil => rfl
  | cons c r =>
    simp [capWord, jsToUpper_jsToUpper, List.map_map, Function.comp, jsToLower_jsToLower]

theorem ascii_lowerStr {l : Str} (h : ∀ c ∈ l, c.toNat ≤ 127) :
    ∀ c ∈ lowerStr l, c.toNat ≤ 127 := by
  intro c hc
  rcases List.mem_map.mp hc with ⟨d, hd, rfl⟩
  exact jsToLower_ascii (h d hd)

theorem ascii_capWord {l : Str} (h : ∀ c ∈ l, c.toNat ≤ 127) :
    ∀ c ∈ capWord l, c.toNat ≤ 127 := by
  cases l with
  | nil => simp [capWord]
  | cons a r =>
    intro c hc
    simp only [capWord, List.mem_cons] at hc
    rcases hc with rfl | hc
    · exact jsToUpper_ascii (h a (by simp))
    · rcases List.mem_map.mp hc with ⟨d, hd, rfl⟩
      exact jsToLower_ascii (h d (by simp [hd]))

/-- Membership of a caseless character transfers through `lowerStr`. -/
theorem mem_lowerStr_special {d : Char} {l : Str}
    (hd1 : ¬(97 ≤ d.toNat ∧ d.toNat ≤ 122)) (hd2 : ¬(65 ≤ d.toNat ∧ d.toNat ≤ 90)) :
    d ∈ lowerStr l ↔ d ∈ l := by
  simp only [lowerStr, List.mem_map]
  constructor
  · rintro ⟨c, hc, he⟩
    rwa [(jsToLower_eq_special hd1 hd2).mp he] at hc
  · intro h
    exact ⟨d, h, (jsToLower_eq_special hd1 hd2).mpr rfl⟩

theorem mem_capWord_special {d : Char} {l : Str}
    (hd1 : ¬(97 ≤ d.toNat ∧ d.toNat ≤ 122)) (hd2 : ¬(65 ≤ d.toNat ∧ d.toNat ≤ 90)) :
    d ∈ capWord l ↔ d ∈ l := by
  cases l with
  | nil => simp [capWord]
  | cons a r =>
    simp only [capWord, List.mem_cons]
    constructor
    · rintro (he | hc)
      · exact Or.inl ((jsToUpper_eq_special hd1 hd2).mp he.symm).symm
      · rcases List.mem_map.mp hc with ⟨c, hc, he⟩
        exact Or.inr (((jsToLower_eq_special hd1 hd2).mp he) ▸ hc)
    · rintro (rfl | hc)
      · exact Or.inl ((jsToUpper_eq_special hd1 hd2).mpr rfl).symm
      · exact Or.inr (List.mem_map.mpr ⟨d, hc, (jsToLower_eq_special hd1 hd2).mpr rfl⟩)

/-! ## splitOnChar and joinSep facts -/

theorem splitOnChar_ne_nil (sep : Char) (l : Str) : splitOnChar sep l ≠ [] := by
  induction l with
  | nil => simp [splitOnChar]
  | cons c rest ih =>
    simp only [splitOnChar]
    split_ifs
    · simp
    · cases h : splitOnChar sep rest <;> simp

theorem not_mem_of_mem_splitOnChar {sep : Char} {l : Str} :
    ∀ p ∈ splitOnChar sep l, sep ∉ p := by
  induction l with
  | nil => simp [splitOnChar]
  | cons c rest ih =>
    intro p hp
    simp only [splitOnChar] at hp
    split_ifs at hp with hc
    · rcases List.mem_cons.mp hp with rfl | hp
      · simp
      · exact ih p hp
    · rcases hsp : splitOnChar sep rest with _ | ⟨q, qs⟩
      · exact absurd hsp (splitOnChar_ne_nil sep rest)
      · rw [hsp] at hp
        rcases List.mem_cons.mp hp with rfl | hp
        · intro hmem
          rcases List.mem_cons.mp hmem with rfl | hmem
          · exact hc rfl
          · exact ih q (by simp [hsp]) hmem
        · exact ih p (by simp [hsp, hp])

theorem mem_of_mem_splitOnChar {sep : Char} {l : Str} :
    ∀ p ∈ splitOnChar sep l, ∀ c ∈ p, c ∈ l := by
  induction l with
  | nil => simp [splitOnChar]
  | cons a rest ih =>
    intro p hp c hc
    simp only [splitOnChar] at hp
    split_ifs at hp with ha
    · rcases List.mem_cons.mp hp with rfl | hp
      · cases hc
      · exact List.mem_cons_of_mem _ (ih p hp c hc)
    · rcases hsp : splitOnChar sep rest with _ | ⟨q, qs⟩
      · exact absurd hsp (splitOnChar_ne_nil sep rest)
      · rw [hsp] at hp
        rcases List.mem_cons.mp hp with rfl | hp
        · rcases List.mem_cons.mp hc with rfl | hc
          · simp
          · exact List.mem_cons_of_mem _ (ih q (by simp [hsp]) c hc)
        · exact List.mem_cons_of_mem _ (ih p (by simp [hsp, hp]) c hc)

theorem joinSep_cons_cons (sep : Char) (p q : Str) (ps : List Str) :
    joinSep sep (p :: q :: ps) = p ++ sep :: joinSep sep (q :: ps) := rfl

theorem joinSep_splitOnChar (sep : Char) (l : Str) :
    joinSep sep (splitOnChar sep l) = l := by
  induction l with
  | nil => rfl
  | cons c rest ih =>
    simp only [splitOnChar]
    split_ifs with hc
    · subst hc
      rcases hsp : splitOnChar c rest with _ | ⟨q, qs⟩
      · exact absurd hsp (splitOnChar_ne_nil c rest)
      · rw [hsp] at ih
        rw [joinSep_cons_cons]
        simp [ih]
    · rcases hsp : splitOnChar sep rest with _ | ⟨q, qs⟩
      · exact absurd hsp (splitOnChar_ne_nil sep rest)
      · rw [hsp] at ih
        cases qs with
        | nil => simpa [joinSep] using congrArg (c :: ·) ih
        | cons q2 qs2 =>
          rw [joinSep_cons_cons] at ih ⊢
          simpa using congrArg (c :: ·) ih

theorem splitOnChar_of_not_mem {sep : Char} {p : Str} (hp : sep ∉ p) :
    splitOnChar sep p = [p] := by
  induction p with
  | nil => rfl
  | cons a r ih =>
    have ha : ¬ a = sep := fun h => hp (by simp [h])
    simp only [splitOnChar, if_neg ha]
    rw [ih (fun hn => hp (List.mem_cons_of_mem _ hn))]

theorem splitOnChar_append_cons {sep : Char} {p : Str} (hp : sep ∉ p) (t : Str) :
    splitOnChar sep (p ++ sep :: t) = p :: splitOnChar sep t := by
  induction p with
  | nil => simp [splitOnChar]
  | cons a r ih =>
    have ha : ¬ a = sep := fun h => hp (by simp [h])
    simp only [List.cons_append, splitOnChar, if_neg ha, List.append_eq]
    rw [ih (fun hn => hp (List.mem_cons_of_mem _ hn))]

theorem splitOnChar_joinSep (sep : Char) :
    ∀ ps : List Str, ps ≠ [] → (∀ p ∈ ps, sep ∉ p) →
      splitOnChar sep (joinSep sep ps) = ps := by
  intro ps
  induction ps with
  | nil => intro h; exact absurd rfl h
  | cons p ps ih =>
    intro _ hmem
    cases ps with
    | nil => exact splitOnChar_of_not_mem (hmem p (by simp))
    | cons q ps2 =>
      rw [joinSep_cons_cons, splitOnChar_append_cons (hmem p (by simp))]
      rw [ih (by simp) (fun x hx => hmem x (by simp [hx]))]

theorem length_splitOnChar_le (sep : Char) (l : Str) :
    (splitOnChar sep l).length ≤ l.length + 1 := by
  induction l with
  | nil => simp [splitOnChar]
  | cons c rest ih =>
    simp only [splitOnChar]
    split_ifs
    · simpa using Nat.le_trans ih (by simp)
    · rcases hq : splitOnChar sep rest with _ | ⟨q, qs⟩
      · exact absurd hq (splitOnChar_ne_nil sep rest)
      · rw [hq] at ih
        simp at ih ⊢
        omega

theorem length_le_of_mem_splitOnChar {sep : Char} {l : Str} :
    ∀ p ∈ splitOnChar sep l, p.length + (splitOnChar sep l).length ≤ l.length + 1 := by
  induction l with
  | nil => simp [splitOnChar]
  | cons c rest ih =>
    intro p hp
    simp only [splitOnChar] at hp ⊢
    split_ifs at hp ⊢ with hc
    · rcases List.mem_cons.mp hp with rfl | hp
      · have := length_splitOnChar_le sep rest
        simp
        omega
      · have := ih p hp
        simp at this ⊢
        omega
    · rcases hq : splitOnChar sep rest with _ | ⟨q, qs⟩
      · exact absurd hq (splitOnChar_ne_nil sep rest)
      · rw [hq] at hp
        rcases List.mem_cons.mp hp with rfl | hp
        · have := ih q (by simp [hq])
          rw [hq] at this
          simp at this ⊢
          omega
        · have := ih p (by simp [hq, hp])
          rw [hq] at this
          simp at this ⊢
          omega

theorem length_splitOnChar_ge_two {sep : Char} {l : Str} (h : sep ∈ l) :
    2 ≤ (splitOnChar sep l).length := by
  induction l with
  | nil => cases h
  | cons c rest ih =>
    simp only [splitOnChar]
    split_ifs with hc
    · have := splitOnChar_ne_nil sep rest
      cases hq : splitOnChar sep rest with
      | nil => exact absurd hq this
      | cons q qs => simp
    · have hmem : sep ∈ rest := by
        rcases List.mem_cons.mp h with rfl | hm
        · exact absurd rfl hc
        · exact hm
      rcases hq : splitOnChar sep rest with _ | ⟨q, qs⟩
      · exact absurd hq (splitOnChar_ne_nil sep rest)
      · have := ih hmem
        rw [hq] at this
        simpa using this

theorem length_lt_of_mem_splitOnChar {sep : Char} {l : Str} (hsep : sep ∈ l) :
    ∀ p ∈ splitOnChar sep l, p.length < l.length := by
  intro p hp
  have h1 := length_le_of_mem_splitOnChar p hp
  have h2 := length_splitOnChar_ge_two hsep
  omega

theorem mem_joinSep_of_two {sep : Char} {ps : List Str} (h : 2 ≤ ps.length) :
    sep ∈ joinSep sep ps := by
  match ps, h with
  | p :: q :: rest, _ => simp [joinSep_cons_cons]

theorem length_joinSep_ge_head {sep : Char} (p : Str) (ps : List Str) :
    p.length ≤ (joinSep sep (p :: ps)).length := by
  cases ps with
  | nil => simp [joinSep]
  | cons q rest => simp [joinSep_cons_cons]

/-! ## startsWithSeq and prefix facts -/

theorem startsWithSeq_iff {l pat : Str} : startsWithSeq l pat = true ↔ pat <+: l := by
  induction pat generalizing l with
  | nil => simp [startsWithSeq]
  | cons a pa ih =>
    cases l with
    | nil => simp [startsWithSeq]
    | cons b lb =>
      simp only [startsWithSeq, Bool.and_eq_true, decide_eq_true_eq, List.cons_prefix_cons]
      rw [ih]
      constructor
      · rintro ⟨h1, h2⟩; exact ⟨h1.symm, h2⟩
      · rintro ⟨h1, h2⟩; exact ⟨h1.symm, h2⟩

theorem prefix_stops_at {pat u v : Str} {d : Char}
    (h : pat <+: (u ++ d :: v)) (hd : d ∉ pat) : pat <+: u := by
  induction pat generalizing u with
  | nil => simp
  | cons a pa ih =>
    cases u with
    | nil =>
      rw [List.nil_append, List.cons_prefix_cons] at h
      exact absurd h.1 (by intro hh; exact hd (by simp [hh]))
    | cons b ub =>
      rw [List.cons_append, List.cons_prefix_cons] at h
      rw [List.cons_prefix_cons]
      exact ⟨h.1, ih h.2 (fun hn => hd (List.mem_cons_of_mem _ hn))⟩

theorem prefix_of_prefix_append {pat x y : Str}
    (h : pat <+: (x ++ y)) (hlen : pat.length ≤ x.length) : pat <+: x := by
  induction pat generalizing x with
  | nil => simp
  | cons a pa ih =>
    cases x with
    | nil => simp at hlen
    | cons b xb =>
      rw [List.cons_append, List.cons_prefix_cons] at h
      rw [List.cons_prefix_cons]
      exact ⟨h.1, ih h.2 (by simpa using hlen)⟩

theorem prefix_particle_unique {q p t : Str}
    (hq : ' ' ∉ q) (hp : ' ' ∉ p)
    (h : (q ++ [' ']) <+: ((p ++ [' ']) ++ t)) : q = p := by
  induction q generalizing p with
  | nil =>
    cases p with
    | nil => rfl
    | cons b pb =>
      simp only [List.nil_append, List.cons_append, List.cons_prefix_cons] at h
      exact absurd h.1.symm (by intro hh; exact hp (by simp [hh]))
  | cons a qa ih =>
    cases p with
    | nil =>
      simp only [List.cons_append, List.nil_append, List.cons_prefix_cons] at h
      exact absurd h.1 (by intro hh; exact hq (by simp [hh]))
    | cons b pb =>
      simp only [List.cons_append, List.cons_prefix_cons] at h
      have := ih (fun hn => hq (List.mem_cons_of_mem _ hn))
        (fun hn => hp (List.mem_cons_of_mem _ hn)) (by simpa using h.2)
      rw [h.1, this]

/-! ## Script classification of ASCII strings -/

theorem detectScriptStr_nil : detectScriptStr [] = .unknown := rfl

theorem detectScriptStr_latin_of_ascii {l : Str} (hne : l ≠ [])
    (h : ∀ c ∈ l, c.toNat ≤ 127) : detectScriptStr l = .latin := by
  have hnone : ∀ (f : Char → Bool),
      (∀ c, f c = true → 128 ≤ c.toNat) → l.any f = false := by
    intro f hf
    rw [List.any_eq_false]
    intro c hc hfc
    have := hf c hfc
    have := h c hc
    omega
  have e1 : l.any (fun c => c.toNat = 0xFFFD) = false :=
    hnone _ (by intro c hc; simp at hc; omega)
  have e2 : l.any isCyrillicChar = false :=
    hnone _ (by intro c hc; simp [isCyrillicChar] at hc; omega)
  have e3 : l.any isDevanagariChar = false :=
    hnone _ (by intro c hc; simp [isDevanagariChar] at hc; omega)
  have e4 : l.any isArabicChar = false :=
    hnone _ (by intro c hc; simp [isArabicChar] at hc; omega)
  have e5 : l.any isHanChar = false :=
    hnone _ (by intro c hc; simp [isHanChar] at hc; omega)
  have e6 : l.any isHiraganaChar = false :=
    hnone _ (by intro c hc; simp [isHiraganaChar] at hc; omega)
  have e7 : l.any isKatakanaChar = false :=
    hnone _ (by intro c hc; simp [isKatakanaChar] at hc; omega)
  have e8 : l.any isHangulChar = false :=
    hnone _ (by intro c hc; simp [isHangulChar] at hc; omega)
  have e9 : l.any isThaiChar = false :=
    hnone _ (by intro c hc; simp [isThaiChar] at hc; omega)
  have e10 : l.any (fun c => c.toNat > 0x7F) = false :=
    hnone _ (by intro c hc; simp at hc; omega)
  simp [detectScriptStr, hne, e1, e2, e3, e4, e5, e6, e7, e8, e9, e10]

set_option maxHeartbeats 1000000 in
theorem ascii_of_detectScriptStr_latin {l : Str} (h : detectScriptStr l = .latin) :
    ∀ c ∈ l, c.toNat ≤ 127 := by
  intro c hc
  by_contra hgt
  have hany : l.any (fun c => c.toNat > 0x7F) = true :=
    List.any_eq_true.mpr ⟨c, hc, by simp; omega⟩
  simp only [detectScriptStr, hany] at h
  split_ifs at h

/-! ## Canonical capitalization on lists and fuel irrelevance -/

theorem pcFuel_irrel :
    ∀ (n : Nat) (l : Str), l.length < n →
      ∀ f g b, l.length < f → l.length < g → pcFuel f l b = pcFuel g l b := by
  intro n
  induction n using Nat.strong_induction_on with
  | _ n ihn =>
    intro l hln f g b hf hg
    cases f with
    | zero => omega
    | succ f =>
      cases g with
      | zero => omega
      | succ g =>
        simp only [pcFuel]
        split_ifs <;> try rfl
        all_goals first
          | (congr 1
             apply List.map_congr_left
             intro part hpart
             exact ihn l.length hln part
               (length_lt_of_mem_splitOnChar ‹ '-' ∈ l› part hpart) f g b
               (by have := length_lt_of_mem_splitOnChar ‹ '-' ∈ l› part hpart; omega)
               (by have := length_lt_of_mem_splitOnChar ‹ '-' ∈ l› part hpart; omega))
          | (cases hph : particleHit l with
             | none => rfl
             | some pe =>
               rcases pe with ⟨p, ex⟩
               cases ex
               · have hlt : (l.drop (p.length + 1)).length < l.length := by
                   have hpos : 0 < l.length := List.length_pos.mpr ‹l ≠ []›
                   rw [List.length_drop]
                   omega
                 simp only []
                 rw [ihn l.length hln _ hlt f g b (by omega) (by omega)]
               · rfl)

theorem pcFuel_eq_pcL {f : Nat} {l : Str} {b : Bool} (h : l.length < f) :
    pcFuel f l b = pcL l b :=
  pcFuel_irrel (l.length + 1) l (by omega) f (l.length + 1) b h (by omega)

/-- One-step unfolding of the canonical capitalization: the recursive calls
    appear with their own canonical fuel. -/
theorem pcL_eq (l : Str) (b : Bool) :
    pcL l b =
      if l = [] then []
      else if detectScriptStr l ≠ .latin ∧ detectScriptStr l ≠ .unknown then l
      else if '-' ∈ l then
        joinSep '-' ((splitOnChar '-' l).map (fun part => pcL part b))
      else if (startsWithSeq (lowerStr l) "mc".data ∨
               startsWithSeq (lowerStr l) "mac".data) ∧ l.length > 3 then
        capWord (l.take (if startsWithSeq (lowerStr l) "mac".data then 3 else 2)) ++
          capWord (l.drop (if startsWithSeq (lowerStr l) "mac".data then 3 else 2))
      else if startsWithSeq (lowerStr l) "o'".data ∧ l.length > 2 then
        match l.drop 2 with
        | [] => l
        | c :: rest => 'O' :: '\'' :: jsToUpper c :: rest.map jsToLower
      else if '\'' ∈ l ∧ ¬ startsWithSeq (lowerStr l) "o'".data ∧
              (splitOnChar '\'' l).length ≥ 2 then
        capWord ((splitOnChar '\'' l).headD []) ++
          '\'' :: capWord ((splitOnChar '\'' l).getD 1 [])
      else
        match particleHit l with
        | some (_, true) => if b then capWord l else lowerStr l
        | some (p, false) =>
          (if b then capWord p.data else lowerStr p.data) ++
            ' ' :: pcL (l.drop (p.length + 1)) b
        | none =>
          if '\'' ∈ l then
            capWord ((splitOnChar '\'' l).headD []) ++
              '\'' :: capWord ((splitOnChar '\'' l).getD 1 [])
          else capWord l := by
  conv_lhs => rw [pcL]
  simp only [pcFuel]
  split_ifs <;> try rfl
  all_goals first
    | (congr 1
       apply List.map_congr_left
       intro part hpart
       exact pcFuel_eq_pcL (length_lt_of_mem_splitOnChar ‹ '-' ∈ l› part hpart))
    | (cases hph : particleHit l with
       | none => rfl
       | some pe =>
         rcases pe with ⟨p, ex⟩
         cases ex
         · have hlt : (l.drop (p.length + 1)).length < l.length := by
             have hpos : 0 < l.length := List.length_pos.mpr ‹l ≠ []›
             rw [List.length_drop]
             omega
           simp only []
           rw [pcFuel_eq_pcL (by omega)]
         · rfl)

/-! ## Particle vocabulary facts -/

theorem string_data_inj {a b : String} (h : a.data = b.data) : a = b := by
  cases a
  cases b
  simp_all

theorem pv_ne_nil : ∀ p ∈ NAME_PARTICLES, p.data ≠ [] := by decide

theorem pv_no_space : ∀ p ∈ NAME_PARTICLES, ' ' ∉ p.data := by decide

theorem pv_lower : ∀ p ∈ NAME_PARTICLES, lowerStr p.data = p.data := by decide

theorem pv_no_hyphen : ∀ p ∈ NAME_PARTICLES, '-' ∉ p.data := by decide

theorem pv_apos : ∀ p ∈ NAME_PARTICLES, '\'' ∈ p.data → p = "o'" := by decide

theorem pv_mc : ∀ p ∈ NAME_PARTICLES, startsWithSeq p.data "mc".data = true → p = "mc" := by
  decide

theorem pv_mac : ∀ p ∈ NAME_PARTICLES, startsWithSeq p.data "mac".data = true → p = "mac" := by
  decide

theorem pv_oapos : ∀ p ∈ NAME_PARTICLES, startsWithSeq p.data "o'".data = true → p = "o'" := by
  decide

theorem pv_ascii : ∀ p ∈ NAME_PARTICLES, ∀ c ∈ p.data, c.toNat ≤ 127 := by decide

theorem pv_len : ∀ p ∈ NAME_PARTICLES, 2 ≤ p.length := by decide

/-! ## particleHit characterization -/

theorem findSome?_unique {α β : Type} {f : α → Option β} {L : List α} {a : α} {b : β}
    (ha : a ∈ L) (hfa : f a = some b) (hothers : ∀ x ∈ L, x ≠ a → f x = none) :
    L.findSome? f = some b := by
  induction L with
  | nil => cases ha
  | cons hd tl ih =>
    by_cases hhd : hd = a
    · subst hhd
      simp [List.findSome?_cons, hfa]
    · have hn : f hd = none := hothers hd (by simp) hhd
      rw [List.findSome?_cons, hn]
      have ha2 : a ∈ tl := by
        rcases List.mem_cons.mp ha with rfl | h2
        · exact absurd rfl hhd
        · exact h2
      exact ih ha2 (fun x hx hne => hothers x (by simp [hx]) hne)

theorem particleHit_mem {l : Str} {p : String} {e : Bool}
    (h : particleHit l = some (p, e)) :
    p ∈ NAME_PARTICLES ∧
      ((e = true ∧ lowerStr l = p.data) ∨
       (e = false ∧ startsWithSeq (lowerStr l) (p.data ++ [' ']) = true ∧
        lowerStr l ≠ p.data)) := by
  unfold particleHit at h
  obtain ⟨q, hq, hfq⟩ := List.exists_of_findSome?_eq_some h
  split_ifs at hfq with h1 h2
  · simp only [Option.some.injEq, Prod.mk.injEq] at hfq
    obtain ⟨rfl, rfl⟩ := hfq
    exact ⟨hq, Or.inl ⟨rfl, h1⟩⟩
  · simp only [Option.some.injEq, Prod.mk.injEq] at hfq
    obtain ⟨rfl, rfl⟩ := hfq
    exact ⟨hq, Or.inr ⟨rfl, h2, h1⟩⟩

theorem particleHit_exact_intro {l : Str} {p : String}
    (hp : p ∈ NAME_PARTICLES) (hl : lowerStr l = p.data) :
    particleHit l = some (p, true) := by
  unfold particleHit
  apply findSome?_unique hp
  · rw [if_pos hl]
  · intro q hq hne
    have hex : ¬ lowerStr l = q.data := by
      rw [hl]
      intro he
      exact hne (string_data_inj he.symm)
    have hsw : ¬ startsWithSeq (lowerStr l) (q.data ++ [' ']) = true := by
      rw [hl]
      intro hsw
      rw [startsWithSeq_iff] at hsw
      exact pv_no_space p hp (hsw.subset (by simp))
    rw [if_neg hex, if_neg hsw]

theorem particleHit_prefix_intro {l : Str} {p : String} {t : Str}
    (hp : p ∈ NAME_PARTICLES) (hl : lowerStr l = p.data ++ ' ' :: t) :
    particleHit l = some (p, false) := by
  have happ : lowerStr l = (p.data ++ [' ']) ++ t := by
    rw [hl]
    simp
  unfold particleHit
  apply findSome?_unique hp
  · have hex : ¬ lowerStr l = p.data := by
      rw [hl]
      intro he
      have := congrArg List.length he
      simp at this
    have hsw : startsWithSeq (lowerStr l) (p.data ++ [' ']) = true := by
      rw [startsWithSeq_iff, happ]
      exact List.prefix_append _ _
    rw [if_neg hex, if_pos hsw]
  · intro q hq hne
    have hex : ¬ lowerStr l = q.data := by
      rw [hl]
      intro he
      have hmem : ' ' ∈ q.data := by
        rw [← he]
        simp
      exact pv_no_space q hq hmem
    have hsw : ¬ startsWithSeq (lowerStr l) (q.data ++ [' ']) = true := by
      intro hsw
      rw [startsWithSeq_iff, happ] at hsw
      exact hne (string_data_inj (prefix_particle_unique (pv_no_space q hq)
        (pv_no_space p hp) hsw))
    rw [if_neg hex, if_neg hsw]

theorem mem_joinSep {sep : Char} {ps : List Str} {c : Char} (h : c ∈ joinSep sep ps) :
    c = sep ∨ ∃ p ∈ ps, c ∈ p := by
  induction ps with
  | nil => cases h
  | cons p ps ih =>
    cases ps with
    | nil => exact Or.inr ⟨p, by simp, h⟩
    | cons q ps2 =>
      rw [joinSep_cons_cons] at h
      rcases List.mem_append.mp h with hm | hm
      · exact Or.inr ⟨p, by simp, hm⟩
      · rcases List.mem_cons.mp hm with rfl | hm
        · exact Or.inl rfl
        · rcases ih hm with h1 | ⟨r, hr, hcr⟩
          · exact Or.inl h1
          · exact Or.inr ⟨r, List.mem_cons_of_mem _ hr, hcr⟩

/-! ## Invariants of the capitalization function -/

theorem pcL_ascii :
    ∀ (n : Nat) (l : Str), l.length < n → (∀ c ∈ l, c.toNat ≤ 127) →
      ∀ b c, c ∈ pcL l b → c.toNat ≤ 127 := by
  intro n
  induction n using Nat.strong_induction_on with
  | _ n ihn =>
    intro l hln hl b c hc
    have hdropsub : l.drop 2 ⊆ l := List.drop_subset _ _
    rw [pcL_eq] at hc
    by_cases h0 : l = []
    · rw [if_pos h0] at hc; cases hc
    rw [if_neg h0] at hc
    by_cases h1 : detectScriptStr l ≠ .latin ∧ detectScriptStr l ≠ .unknown
    · rw [if_pos h1] at hc; exact hl c hc
    rw [if_neg h1] at hc
    by_cases h2 : '-' ∈ l
    · rw [if_pos h2] at hc
      rcases mem_joinSep hc with rfl | ⟨q, hq, hcq⟩
      · decide
      · rcases List.mem_map.mp hq with ⟨part, hpart, rfl⟩
        exact ihn l.length hln part (length_lt_of_mem_splitOnChar h2 part hpart)
          (fun d hd => hl d (mem_of_mem_splitOnChar part hpart d hd)) b c hcq
    rw [if_neg h2] at hc
    by_cases h3 : (startsWithSeq (lowerStr l) "mc".data ∨
        startsWithSeq (lowerStr l) "mac".data) ∧ l.length > 3
    · rw [if_pos h3] at hc
      rcases List.mem_append.mp hc with hm | hm
      · exact ascii_capWord (fun d hd => hl d (List.take_subset _ _ hd)) c hm
      · exact ascii_capWord (fun d hd => hl d (List.drop_subset _ _ hd)) c hm
    rw [if_neg h3] at hc
    by_cases h4 : startsWithSeq (lowerStr l) "o'".data ∧ l.length > 2
    · rw [if_pos h4] at hc
      rcases hdrop : l.drop 2 with _ | ⟨d, rest⟩ <;> rw [hdrop] at hc
      · exact hl c hc
      · replace hc : c ∈ ('O' :: '\'' :: jsToUpper d :: rest.map jsToLower) := hc
        simp only [List.mem_cons] at hc
        rcases hc with rfl | rfl | rfl | hm
        · decide
        · decide
        · exact jsToUpper_ascii (hl d (hdropsub (by rw [hdrop]; simp)))
        · rcases List.mem_map.mp hm with ⟨e, he, rfl⟩
          exact jsToLower_ascii (hl e (hdropsub (by rw [hdrop]; simp [he])))
    rw [if_neg h4] at hc
    have hapos : ∀ hm : c ∈ capWord ((splitOnChar '\'' l).headD []) ++
        '\'' :: capWord ((splitOnChar '\'' l).getD 1 []), c.toNat ≤ 127 := by
      intro hm
      rcases hps : splitOnChar '\'' l with _ | ⟨p0, tail⟩
      · exact absurd hps (splitOnChar_ne_nil _ _)
      · have hp0 : p0 ∈ splitOnChar '\'' l := by rw [hps]; exact List.mem_cons_self _ _
        rw [hps] at hm
        rcases List.mem_append.mp hm with hm2 | hm2
        · simp only [List.headD_cons] at hm2
          exact ascii_capWord
            (fun d hd => hl d (mem_of_mem_splitOnChar p0 hp0 d hd)) c hm2
        · rcases List.mem_cons.mp hm2 with rfl | hm3
          · decide
          · cases tail with
            | nil => simp [capWord] at hm3
            | cons p1 t2 =>
              have hp1 : p1 ∈ splitOnChar '\'' l := by rw [hps]; simp
              simp only [List.getD_cons_succ, List.getD_cons_zero] at hm3
              exact ascii_capWord
                (fun d hd => hl d (mem_of_mem_splitOnChar p1 hp1 d hd)) c hm3
    by_cases h5 : '\'' ∈ l ∧ ¬ startsWithSeq (lowerStr l) "o'".data ∧
        (splitOnChar '\'' l).length ≥ 2
    · rw [if_pos h5] at hc
      exact hapos hc
    rw [if_neg h5] at hc
    rcases hph : particleHit l with _ | ⟨p, e⟩
    · rw [hph] at hc
      replace hc : c ∈ (if '\'' ∈ l then
          capWord ((splitOnChar '\'' l).headD []) ++
            '\'' :: capWord ((splitOnChar '\'' l).getD 1 [])
        else capWord l) := hc
      split_ifs at hc
      · exact hapos hc
      · exact ascii_capWord hl c hc
    · cases e
      · rw [hph] at hc
        replace hc : c ∈ ((if b then capWord p.data else lowerStr p.data) ++
            ' ' :: pcL (l.drop (p.length + 1)) b) := hc
        have hp := (particleHit_mem hph).1
        rcases List.mem_append.mp hc with hm | hm
        · split_ifs at hm
          · exact ascii_capWord (pv_ascii p hp) c hm
          · exact ascii_lowerStr (pv_ascii p hp) c hm
        · rcases List.mem_cons.mp hm with rfl | hm
          · decide
          · have hlen : (l.drop (p.length + 1)).length < l.length := by
              have : 0 < l.length := List.length_pos.mpr h0
              rw [List.length_drop]
              omega
            exact ihn l.length hln _ hlen
              (fun d hd => hl d (List.drop_subset _ _ hd)) b c hm
      · rw [hph] at hc
        replace hc : c ∈ (if b then capWord l else lowerStr l) := hc
        split_ifs at hc
        · exact ascii_capWord hl c hc
        · exact ascii_lowerStr hl c hc

theorem pcL_special :
    ∀ (n : Nat) (l : Str), l.length < n → ∀ (d : Char),
      ¬(97 ≤ d.toNat ∧ d.toNat ≤ 122) → ¬(65 ≤ d.toNat ∧ d.toNat ≤ 90) →
      d ∉ l → ∀ b, d ∉ pcL l b := by
  intro n
  induction n using Nat.strong_induction_on with
  | _ n ihn =>
    intro l hln d hd1 hd2 hno b hc
    have hdropsub : l.drop 2 ⊆ l := List.drop_subset _ _
    have hapQ : ¬(97 ≤ '\''.toNat ∧ '\''.toNat ≤ 122) ∧
        ¬(65 ≤ '\''.toNat ∧ '\''.toNat ≤ 90) := by decide
    have hspQ : ¬(97 ≤ ' '.toNat ∧ ' '.toNat ≤ 122) ∧
        ¬(65 ≤ ' '.toNat ∧ ' '.toNat ≤ 90) := by decide
    rw [pcL_eq] at hc
    by_cases h0 : l = []
    · rw [if_pos h0] at hc; cases hc
    rw [if_neg h0] at hc
    by_cases h1 : detectScriptStr l ≠ .latin ∧ detectScriptStr l ≠ .unknown
    · rw [if_pos h1] at hc; exact hno hc
    rw [if_neg h1] at hc
    by_cases h2 : '-' ∈ l
    · rw [if_pos h2] at hc
      rcases mem_joinSep hc with rfl | ⟨q, hq, hcq⟩
      · exact hno h2
      · rcases List.mem_map.mp hq with ⟨part, hpart, rfl⟩
        exact ihn l.length hln part (length_lt_of_mem_splitOnChar h2 part hpart) d hd1 hd2
          (fun hd => hno (mem_of_mem_splitOnChar part hpart d hd)) b hcq
    rw [if_neg h2] at hc
    by_cases h3 : (startsWithSeq (lowerStr l) "mc".data ∨
        startsWithSeq (lowerStr l) "mac".data) ∧ l.length > 3
    · rw [if_pos h3] at hc
      rcases List.mem_append.mp hc with hm | hm
      · exact hno (List.take_subset _ _ ((mem_capWord_special hd1 hd2).mp hm))
      · exact hno (List.drop_subset _ _ ((mem_capWord_special hd1 hd2).mp hm))
    rw [if_neg h3] at hc
    by_cases h4 : startsWithSeq (lowerStr l) "o'".data ∧ l.length > 2
    · have haposl : '\'' ∈ l := by
        have hpre := startsWithSeq_iff.mp h4.1
        exact (mem_lowerStr_special hapQ.1 hapQ.2).mp (hpre.subset (by simp))
      rw [if_pos h4] at hc
      rcases hdrop : l.drop 2 with _ | ⟨c0, rest⟩ <;> rw [hdrop] at hc
      · exact hno hc
      · replace hc : d ∈ ('O' :: '\'' :: jsToUpper c0 :: rest.map jsToLower) := hc
        simp only [List.mem_cons] at hc
        rcases hc with rfl | rfl | hEq | hm
        · exact hd2 (by decide)
        · exact hno haposl
        · have hc0 : c0 = d := (jsToUpper_eq_special hd1 hd2).mp hEq.symm
          exact hno (hdropsub (by rw [hdrop]; simp [hc0]))
        · rcases List.mem_map.mp hm with ⟨e, he, hEq⟩
          have he2 : e = d := (jsToLower_eq_special hd1 hd2).mp hEq
          exact hno (hdropsub (by rw [hdrop]; simp [← he2, he]))
    rw [if_neg h4] at hc
    have hapos : '\'' ∈ l →
      d ∈ capWord ((splitOnChar '\'' l).headD []) ++
        '\'' :: capWord ((splitOnChar '\'' l).getD 1 []) → False := by
      intro hin hm
      rcases hps : splitOnChar '\'' l with _ | ⟨p0, tail⟩
      · exact absurd hps (splitOnChar_ne_nil _ _)
      · have hp0 : p0 ∈ splitOnChar '\'' l := by rw [hps]; exact List.mem_cons_self _ _
        rw [hps] at hm
        rcases List.mem_append.mp hm with hm2 | hm2
        · simp only [List.headD_cons] at hm2
          exact hno (mem_of_mem_splitOnChar p0 hp0 d ((mem_capWord_special hd1 hd2).mp hm2))
        · rcases List.mem_cons.mp hm2 with rfl | hm3
          · exact hno hin
          · cases tail with
            | nil => simp [capWord] at hm3
            | cons p1 t2 =>
              have hp1 : p1 ∈ splitOnChar '\'' l := by rw [hps]; simp
              simp only [List.getD_cons_succ, List.getD_cons_zero] at hm3
              exact hno
                (mem_of_mem_splitOnChar p1 hp1 d ((mem_capWord_special hd1 hd2).mp hm3))
    by_cases h5 : '\'' ∈ l ∧ ¬ startsWithSeq (lowerStr l) "o'".data ∧
        (splitOnChar '\'' l).length ≥ 2
    · rw [if_pos h5] at hc
      exact hapos h5.1 hc
    rw [if_neg h5] at hc
    rcases hph : particleHit l with _ | ⟨p, e⟩
    · rw [hph] at hc
      replace hc : d ∈ (if '\'' ∈ l then
          capWord ((splitOnChar '\'' l).headD []) ++
            '\'' :: capWord ((splitOnChar '\'' l).getD 1 [])
        else capWord l) := hc
      split_ifs at hc with hap
      · exact hapos hap hc
      · exact hno ((mem_capWord_special hd1 hd2).mp hc)
    · cases e
      · rw [hph] at hc
        replace hc : d ∈ ((if b then capWord p.data else lowerStr p.data) ++
            ' ' :: pcL (l.drop (p.length + 1)) b) := hc
        rcases particleHit_mem hph with ⟨hp, hca | ⟨-, hsw, -⟩⟩
        · exact absurd hca.1 (by simp)
        have hpre := startsWithSeq_iff.mp hsw
        have hmemofp : d ∈ p.data → False := by
          intro hdp
          exact hno ((mem_lowerStr_special hd1 hd2).mp
            (hpre.subset (List.mem_append_left _ hdp)))
        rcases List.mem_append.mp hc with hm | hm
        · split_ifs at hm
          · exact hmemofp ((mem_capWord_special hd1 hd2).mp hm)
          · exact hmemofp ((mem_lowerStr_special hd1 hd2).mp hm)
        · rcases List.mem_cons.mp hm with rfl | hm
          · exact hno ((mem_lowerStr_special hspQ.1 hspQ.2).mp
              (hpre.subset (List.mem_append_right _ (by simp))))
          · have hlen : (l.drop (p.length + 1)).length < l.length := by
              have : 0 < l.length := List.length_pos.mpr h0
              rw [List.length_drop]
              omega
            exact ihn l.length hln _ hlen d hd1 hd2
              (fun hd => hno (List.drop_subset _ _ hd)) b hm
      · rw [hph] at hc
        replace hc : d ∈ (if b then capWord l else lowerStr l) := hc
        split_ifs at hc
        · exact hno ((mem_capWord_special hd1 hd2).mp hc)
        · exact hno ((mem_lowerStr_special hd1 hd2).mp hc)

theorem jsToUpper_jsToLower (c : Char) : jsToUpper (jsToLower c) = jsToUpper c := by
  apply char_toNat_inj
  simp only [toNat_jsToUpper, toNat_jsToLower]
  split_ifs <;> omega

set_option maxHeartbeats 1000000 in
theorem detectScriptStr_ne_unknown {l : Str} (h : l ≠ []) :
    detectScriptStr l ≠ .unknown := by
  intro hcon
  unfold detectScriptStr at hcon
  rw [if_neg h] at hcon
  split_ifs at hcon

theorem latin_of_passthrough {l : Str} (h0 : l ≠ [])
    (h1 : ¬ (detectScriptStr l ≠ .latin ∧ detectScriptStr l ≠ .unknown)) :
    detectScriptStr l = .latin := by
  have := detectScriptStr_ne_unknown h0
  tauto

theorem lower_length_eq {x y : Str} (h : lowerStr x = lowerStr y) :
    x.length = y.length := by
  have := congrArg List.length h
  simpa [length_lowerStr] using this

theorem capWord_congr {x y : Str} (h : lowerStr x = lowerStr y) :
    capWord x = capWord y := by
  cases x with
  | nil =>
    cases y with
    | nil => rfl
    | cons b ys => simp [lowerStr] at h
  | cons a xs =>
    cases y with
    | nil => simp [lowerStr] at h
    | cons b ys =>
      simp only [lowerStr, List.map_cons, List.cons.injEq] at h
      simp only [capWord]
      rw [← jsToUpper_jsToLower a, ← jsToUpper_jsToLower b, h.1, h.2]

theorem lowerStr_append (x y : Str) :
    lowerStr (x ++ y) = lowerStr x ++ lowerStr y := by
  simp [lowerStr]

theorem lowerStr_joinSep {sep : Char} (hsep : jsToLower sep = sep) :
    ∀ ps : List Str, lowerStr (joinSep sep ps) = joinSep sep (ps.map lowerStr) := by
  intro ps
  induction ps with
  | nil => rfl
  | cons p ps ih =>
    cases ps with
    | nil => rfl
    | cons q ps2 =>
      rw [joinSep_cons_cons, List.map_cons, List.map_cons, joinSep_cons_cons,
        lowerStr_append]
      rw [List.map_cons] at ih
      simp only [lowerStr, List.map_cons, hsep] at ih ⊢
      rw [ih]

theorem splitOnChar_lowerStr {sep : Char}
    (hd1 : ¬(97 ≤ sep.toNat ∧ sep.toNat ≤ 122))
    (hd2 : ¬(65 ≤ sep.toNat ∧ sep.toNat ≤ 90)) :
    ∀ l : Str, splitOnChar sep (lowerStr l) = (splitOnChar sep l).map lowerStr := by
  intro l
  induction l with
  | nil => rfl
  | cons c rest ih =>
    by_cases hc : c = sep
    · have h1 : jsToLower c = sep := (jsToLower_eq_special hd1 hd2).mpr hc
      simp only [lowerStr, List.map_cons] at ih ⊢
      simp only [splitOnChar, if_pos h1, if_pos hc, List.map_cons, ih]
      rfl
    · have h1 : ¬ jsToLower c = sep := fun h => hc ((jsToLower_eq_special hd1 hd2).mp h)
      simp only [lowerStr, List.map_cons] at ih ⊢
      simp only [splitOnChar, if_neg h1, if_neg hc, ih]
      rcases hsp : splitOnChar sep rest with _ | ⟨p, ps⟩
      · exact absurd hsp (splitOnChar_ne_nil _ _)
      · simp [lowerStr]

theorem particleHit_congr {x y : Str} (h : lowerStr x = lowerStr y) :
    particleHit x = particleHit y := by
  unfold particleHit
  rw [h]

theorem pcL_congr :
    ∀ (n : Nat) (x : Str), x.length < n → ∀ (y : Str) (b : Bool),
      lowerStr x = lowerStr y →
      (∀ c ∈ x, c.toNat ≤ 127) → (∀ c ∈ y, c.toNat ≤ 127) →
      pcL x b = pcL y b := by
  intro n
  induction n using Nat.strong_induction_on with
  | _ n ihn =>
    intro x hxn y b hlow hax hay
    have hlen : x.length = y.length := lower_length_eq hlow
    rw [pcL_eq x b, pcL_eq y b]
    by_cases h0 : x = []
    · have h0y : y = [] := by rw [← List.length_eq_zero, ← hlen, h0]; rfl
      rw [if_pos h0, if_pos h0y]
    have h0y : y ≠ [] := fun hy => h0 (by rw [← List.length_eq_zero, hlen, hy]; rfl)
    rw [if_neg h0, if_neg h0y]
    have hlx : detectScriptStr x = .latin := detectScriptStr_latin_of_ascii h0 hax
    have hly : detectScriptStr y = .latin := detectScriptStr_latin_of_ascii h0y hay
    have hs1x : ¬ (detectScriptStr x ≠ .latin ∧ detectScriptStr x ≠ .unknown) := by
      rw [hlx]; simp
    have hs1y : ¬ (detectScriptStr y ≠ .latin ∧ detectScriptStr y ≠ .unknown) := by
      rw [hly]; simp
    rw [if_neg hs1x, if_neg hs1y]
    have hmemtr : ∀ d : Char, ¬(97 ≤ d.toNat ∧ d.toNat ≤ 122) →
        ¬(65 ≤ d.toNat ∧ d.toNat ≤ 90) → (d ∈ x ↔ d ∈ y) := by
      intro d d1 d2
      rw [← @mem_lowerStr_special d x d1 d2, hlow, @mem_lowerStr_special d y d1 d2]
    by_cases h2 : '-' ∈ x
    · have h2y : '-' ∈ y := (hmemtr '-' (by decide) (by decide)).mp h2
      rw [if_pos h2, if_pos h2y]
      have hsplit : (splitOnChar '-' x).map lowerStr = (splitOnChar '-' y).map lowerStr := by
        rw [← splitOnChar_lowerStr (by decide) (by decide) x,
          ← splitOnChar_lowerStr (by decide) (by decide) y, hlow]
      congr 1
      have main : ∀ (px py : List Str), px.map lowerStr = py.map lowerStr →
          (∀ p ∈ px, p.length < x.length) →
          (∀ p ∈ px, ∀ c ∈ p, c.toNat ≤ 127) → (∀ p ∈ py, ∀ c ∈ p, c.toNat ≤ 127) →
          px.map (fun part => pcL part b) = py.map (fun part => pcL part b) := by
        intro px
        induction px with
        | nil =>
          intro py hmapeq _ _ _
          cases py with
          | nil => rfl
          | cons q qy => simp at hmapeq
        | cons p px2 ihp =>
          intro py hmapeq hlenp hap hay2
          cases py with
          | nil => simp at hmapeq
          | cons q qy =>
            simp only [List.map_cons, List.cons.injEq] at hmapeq ⊢
            refine ⟨?_, ?_⟩
            · exact ihn x.length hxn p (hlenp p (by simp)) q b hmapeq.1
                (hap p (by simp)) (hay2 q (by simp))
            · exact ihp qy hmapeq.2 (fun r hr => hlenp r (by simp [hr]))
                (fun r hr => hap r (by simp [hr])) (fun r hr => hay2 r (by simp [hr]))
      exact main _ _ hsplit (length_lt_of_mem_splitOnChar h2)
        (fun p hp c hcp => hax c (mem_of_mem_splitOnChar p hp c hcp))
        (fun p hp c hcp => hay c (mem_of_mem_splitOnChar p hp c hcp))
    have h2y : '-' ∉ y := fun hy => h2 ((hmemtr '-' (by decide) (by decide)).mpr hy)
    rw [if_neg h2, if_neg h2y]
    by_cases h3 : (startsWithSeq (lowerStr x) "mc".data ∨
        startsWithSeq (lowerStr x) "mac".data) ∧ x.length > 3
    · have h3y : (startsWithSeq (lowerStr y) "mc".data ∨
          startsWithSeq (lowerStr y) "mac".data) ∧ y.length > 3 := by
        rw [← hlow, ← hlen]; exact h3
      rw [if_pos h3, if_pos h3y]
      have hkeq : (if startsWithSeq (lowerStr x) "mac".data then 3 else 2) =
          (if startsWithSeq (lowerStr y) "mac".data then 3 else 2) := by rw [hlow]
      rw [hkeq]
      have ht : lowerStr (x.take (if startsWithSeq (lowerStr y) "mac".data then 3 else 2)) =
          lowerStr (y.take (if startsWithSeq (lowerStr y) "mac".data then 3 else 2)) := by
        simp only [lowerStr, List.map_take]
        rw [show x.map jsToLower = y.map jsToLower from hlow]
      have hd : lowerStr (x.drop (if startsWithSeq (lowerStr y) "mac".data then 3 else 2)) =
          lowerStr (y.drop (if startsWithSeq (lowerStr y) "mac".data then 3 else 2)) := by
        simp only [lowerStr, List.map_drop]
        rw [show x.map jsToLower = y.map jsToLower from hlow]
      rw [capWord_congr ht, capWord_congr hd]
    have h3y : ¬ ((startsWithSeq (lowerStr y) "mc".data ∨
        startsWithSeq (lowerStr y) "mac".data) ∧ y.length > 3) := by
      rw [← hlow, ← hlen]; exact h3
    rw [if_neg h3, if_neg h3y]
    by_cases h4 : startsWithSeq (lowerStr x) "o'".data ∧ x.length > 2
    · have h4y : startsWithSeq (lowerStr y) "o'".data ∧ y.length > 2 := by
        rw [← hlow, ← hlen]; exact h4
      rw [if_pos h4, if_pos h4y]
      have hxd : x.drop 2 ≠ [] := by
        intro hnil
        have := congrArg List.length hnil
        simp [List.length_drop] at this
        omega
      have hyd : y.drop 2 ≠ [] := by
        intro hnil
        have := congrArg List.length hnil
        simp [List.length_drop] at this
        omega
      have hdlow : lowerStr (x.drop 2) = lowerStr (y.drop 2) := by
        simp only [lowerStr, List.map_drop]
        rw [show x.map jsToLower = y.map jsToLower from hlow]
      rcases hdx : x.drop 2 with _ | ⟨cx, restx⟩
      · exact absurd hdx hxd
      rcases hdy : y.drop 2 with _ | ⟨cy, resty⟩
      · exact absurd hdy hyd
      rw [hdx, hdy] at hdlow
      simp only [lowerStr, List.map_cons, List.cons.injEq] at hdlow
      show ('O' :: '\'' :: jsToUpper cx :: List.map jsToLower restx : Str) =
        'O' :: '\'' :: jsToUpper cy :: List.map jsToLower resty
      rw [← jsToUpper_jsToLower cx, ← jsToUpper_jsToLower cy, hdlow.1, hdlow.2]
    have h4y : ¬ (startsWithSeq (lowerStr y) "o'".data ∧ y.length > 2) := by
      rw [← hlow, ← hlen]; exact h4
    rw [if_neg h4, if_neg h4y]
    have hapmem : ('\'' ∈ x) ↔ ('\'' ∈ y) := hmemtr '\'' (by decide) (by decide)
    have hsplitmap : (splitOnChar '\'' x).map lowerStr =
        (splitOnChar '\'' y).map lowerStr := by
      rw [← splitOnChar_lowerStr (by decide) (by decide) x,
        ← splitOnChar_lowerStr (by decide) (by decide) y, hlow]
    have hsplen : (splitOnChar '\'' x).length = (splitOnChar '\'' y).length := by
      have := congrArg List.length hsplitmap
      simpa using this
    have haposeq : '\'' ∈ x →
        capWord ((splitOnChar '\'' x).headD []) ++
          '\'' :: capWord ((splitOnChar '\'' x).getD 1 []) =
        capWord ((splitOnChar '\'' y).headD []) ++
          '\'' :: capWord ((splitOnChar '\'' y).getD 1 []) := by
      intro hin
      have hge : 2 ≤ (splitOnChar '\'' x).length := length_splitOnChar_ge_two hin
      rcases hx5 : splitOnChar '\'' x with _ | ⟨p0, tl⟩
      · exact absurd hx5 (splitOnChar_ne_nil _ _)
      rcases hy5 : splitOnChar '\'' y with _ | ⟨q0, tly⟩
      · exact absurd hy5 (splitOnChar_ne_nil _ _)
      rw [hx5, hy5] at hsplitmap
      rw [hx5] at hge
      simp only [List.map_cons, List.cons.injEq] at hsplitmap
      cases tl with
      | nil => simp at hge
      | cons p1 tl2 =>
        cases tly with
        | nil => simp at hsplitmap
        | cons q1 tly2 =>
          simp only [List.map_cons, List.cons.injEq] at hsplitmap
          simp only [List.headD_cons, List.getD_cons_succ, List.getD_cons_zero]
          rw [capWord_congr hsplitmap.1, capWord_congr hsplitmap.2.1]
    by_cases h5 : '\'' ∈ x ∧ ¬ startsWithSeq (lowerStr x) "o'".data ∧
        (splitOnChar '\'' x).length ≥ 2
    · have h5y : '\'' ∈ y ∧ ¬ startsWithSeq (lowerStr y) "o'".data ∧
          (splitOnChar '\'' y).length ≥ 2 :=
        ⟨hapmem.mp h5.1, by rw [← hlow]; exact h5.2.1, by rw [← hsplen]; exact h5.2.2⟩
      rw [if_pos h5, if_pos h5y]
      exact haposeq h5.1
    have h5y : ¬ ('\'' ∈ y ∧ ¬ startsWithSeq (lowerStr y) "o'".data ∧
        (splitOnChar '\'' y).length ≥ 2) := by
      intro hy
      exact h5 ⟨hapmem.mpr hy.1, by rw [hlow]; exact hy.2.1, by rw [hsplen]; exact hy.2.2⟩
    rw [if_neg h5, if_neg h5y]
    have hpc : particleHit y = particleHit x := particleHit_congr hlow.symm
    rw [hpc]
    rcases hph : particleHit x with _ | ⟨p, e⟩
    · have hred : (if '\'' ∈ x then
          capWord ((splitOnChar '\'' x).headD []) ++
            '\'' :: capWord ((splitOnChar '\'' x).getD 1 [])
        else capWord x) = (if '\'' ∈ y then
          capWord ((splitOnChar '\'' y).headD []) ++
            '\'' :: capWord ((splitOnChar '\'' y).getD 1 [])
        else capWord y) := by
        by_cases hap : '\'' ∈ x
        · rw [if_pos hap, if_pos (hapmem.mp hap)]
          exact haposeq hap
        · rw [if_neg hap, if_neg (fun hy => hap (hapmem.mpr hy))]
          exact capWord_congr hlow
      exact hred
    · cases e
      · have hdroplow : lowerStr (x.drop (p.length + 1)) =
            lowerStr (y.drop (p.length + 1)) := by
          simp only [lowerStr, List.map_drop]
          rw [show x.map jsToLower = y.map jsToLower from hlow]
        have hlt : (x.drop (p.length + 1)).length < x.length := by
          have : 0 < x.length := List.length_pos.mpr h0
          rw [List.length_drop]
          omega
        have hrec : pcL (x.drop (p.length + 1)) b = pcL (y.drop (p.length + 1)) b :=
          ihn x.length hxn _ hlt _ b hdroplow
            (fun c hc => hax c (List.drop_subset _ _ hc))
            (fun c hc => hay c (List.drop_subset _ _ hc))
        have hred : (if b then capWord p.data else lowerStr p.data) ++
            ' ' :: pcL (x.drop (p.length + 1)) b =
            (if b then capWord p.data else lowerStr p.data) ++
            ' ' :: pcL (y.drop (p.length + 1)) b := by rw [hrec]
        exact hred
      · have hred : (if b then capWord x else lowerStr x) =
            (if b then capWord y else lowerStr y) := by
          cases b
          · simpa using hlow
          · simpa using capWord_congr hlow
        exact hred

theorem pcL_lower :
    ∀ (n : Nat) (l : Str), l.length < n → '\'' ∉ l → ∀ b,
      lowerStr (pcL l b) = lowerStr l := by
  intro n
  induction n using Nat.strong_induction_on with
  | _ n ihn =>
    intro l hln hno b
    have hapQ1 : ¬(97 ≤ '\''.toNat ∧ '\''.toNat ≤ 122) := by decide
    have hapQ2 : ¬(65 ≤ '\''.toNat ∧ '\''.toNat ≤ 90) := by decide
    rw [pcL_eq]
    by_cases h0 : l = []
    · rw [if_pos h0, h0]
    rw [if_neg h0]
    by_cases h1 : detectScriptStr l ≠ .latin ∧ detectScriptStr l ≠ .unknown
    · rw [if_pos h1]
    rw [if_neg h1]
    by_cases h2 : '-' ∈ l
    · rw [if_pos h2]
      have hdl : jsToLower '-' = '-' := by decide
      rw [lowerStr_joinSep hdl, List.map_map]
      have hcong : (splitOnChar '-' l).map (lowerStr ∘ fun part => pcL part b) =
          (splitOnChar '-' l).map lowerStr := by
        apply List.map_congr_left
        intro part hpart
        exact ihn l.length hln part (length_lt_of_mem_splitOnChar h2 part hpart)
          (fun hd => hno (mem_of_mem_splitOnChar part hpart _ hd)) b
      rw [hcong, ← lowerStr_joinSep hdl, joinSep_splitOnChar]
    rw [if_neg h2]
    by_cases h3 : (startsWithSeq (lowerStr l) "mc".data ∨
        startsWithSeq (lowerStr l) "mac".data) ∧ l.length > 3
    · rw [if_pos h3, lowerStr_append, lowerStr_capWord, lowerStr_capWord,
        ← lowerStr_append, List.take_append_drop]
    rw [if_neg h3]
    by_cases h4 : startsWithSeq (lowerStr l) "o'".data ∧ l.length > 2
    · exact absurd ((@mem_lowerStr_special '\'' l hapQ1 hapQ2).mp
        ((startsWithSeq_iff.mp h4.1).subset (by simp))) hno
    rw [if_neg h4]
    by_cases h5 : '\'' ∈ l ∧ ¬ startsWithSeq (lowerStr l) "o'".data ∧
        (splitOnChar '\'' l).length ≥ 2
    · exact absurd h5.1 hno
    rw [if_neg h5]
    rcases hph : particleHit l with _ | ⟨p, e⟩
    · show lowerStr (if '\'' ∈ l then
          capWord ((splitOnChar '\'' l).headD []) ++
            '\'' :: capWord ((splitOnChar '\'' l).getD 1 [])
        else capWord l) = lowerStr l
      rw [if_neg hno, lowerStr_capWord]
    · cases e
      · rcases particleHit_mem hph with ⟨hp, ⟨hca, -⟩ | ⟨-, hsw, -⟩⟩
        · exact absurd hca (by simp)
        show lowerStr ((if b then capWord p.data else lowerStr p.data) ++
            ' ' :: pcL (l.drop (p.length + 1)) b) = lowerStr l
        obtain ⟨t, ht⟩ := startsWithSeq_iff.mp hsw
        have hplen : (p.data ++ [' ']).length = p.length + 1 := by
          simp only [List.length_append, List.length_singleton]
          rfl
        have hlt : (l.drop (p.length + 1)).length < l.length := by
          have : 0 < l.length := List.length_pos.mpr h0
          rw [List.length_drop]
          omega
        have hrec : lowerStr (pcL (l.drop (p.length + 1)) b) =
            lowerStr (l.drop (p.length + 1)) :=
          ihn l.length hln _ hlt (fun hd => hno (List.drop_subset _ _ hd)) b
        have hDl : lowerStr (l.drop (p.length + 1)) = t := by
          have hmd : lowerStr (l.drop (p.length + 1)) =
              (lowerStr l).drop (p.length + 1) := by
            simp [lowerStr, List.map_drop]
          rw [hmd, ← ht, List.drop_left' hplen]
        have hpp : lowerStr (if b then capWord p.data else lowerStr p.data) = p.data := by
          cases b
          · rw [if_neg Bool.false_ne_true, lowerStr_lowerStr, pv_lower p hp]
          · rw [if_pos rfl, lowerStr_capWord, pv_lower p hp]
        have hsp : jsToLower ' ' = ' ' := by decide
        rw [lowerStr_append, hpp]
        show p.data ++ jsToLower ' ' :: lowerStr (pcL (l.drop (p.length + 1)) b) = lowerStr l
        rw [hsp, hrec, hDl, ← ht]
        simp
      · show lowerStr (if b then capWord l else lowerStr l) = lowerStr l
        cases b
        · rw [if_neg Bool.false_ne_true, lowerStr_lowerStr]
        · rw [if_pos rfl, lowerStr_capWord]

theorem pcL_idem :
    ∀ (n : Nat) (l : Str), l.length < n → ∀ b, pcL (pcL l b) b = pcL l b := by
  intro n
  induction n using Nat.strong_induction_on with
  | _ n ihn =>
    intro l hln b
    rw [pcL_eq l b]
    by_cases h0 : l = []
    · rw [if_pos h0, pcL_eq]
      simp
    rw [if_neg h0]
    by_cases h1 : detectScriptStr l ≠ .latin ∧ detectScriptStr l ≠ .unknown
    · rw [if_pos h1, pcL_eq, if_neg h0, if_pos h1]
    rw [if_neg h1]
    have hlat : detectScriptStr l = .latin := latin_of_passthrough h0 h1
    have hascii : ∀ c ∈ l, c.toNat ≤ 127 := ascii_of_detectScriptStr_latin hlat
    by_cases h2 : '-' ∈ l
    · rw [if_pos h2]
      have hJmem : '-' ∈ joinSep '-' ((splitOnChar '-' l).map (fun part => pcL part b)) :=
        mem_joinSep_of_two (by rw [List.length_map]; exact length_splitOnChar_ge_two h2)
      have hJne : joinSep '-' ((splitOnChar '-' l).map (fun part => pcL part b)) ≠ [] :=
        List.ne_nil_of_mem hJmem
      have hJascii : ∀ c ∈ joinSep '-' ((splitOnChar '-' l).map (fun part => pcL part b)),
          c.toNat ≤ 127 := by
        intro c hc
        rcases mem_joinSep hc with rfl | ⟨q, hq, hcq⟩
        · decide
        · rcases List.mem_map.mp hq with ⟨part, hpart, rfl⟩
          exact pcL_ascii l.length part (length_lt_of_mem_splitOnChar h2 part hpart)
            (fun d hd => hascii d (mem_of_mem_splitOnChar part hpart d hd)) b c hcq
      have hJlat : detectScriptStr
          (joinSep '-' ((splitOnChar '-' l).map (fun part => pcL part b))) = .latin :=
        detectScriptStr_latin_of_ascii hJne hJascii
      have hJs : ¬ (detectScriptStr
            (joinSep '-' ((splitOnChar '-' l).map (fun part => pcL part b))) ≠ .latin ∧
          detectScriptStr
            (joinSep '-' ((splitOnChar '-' l).map (fun part => pcL part b))) ≠ .unknown) := by
        rw [hJlat]; simp
      rw [pcL_eq, if_neg hJne, if_neg hJs, if_pos hJmem]
      have hsub : splitOnChar '-' (joinSep '-' ((splitOnChar '-' l).map
          (fun part => pcL part b))) = (splitOnChar '-' l).map (fun part => pcL part b) := by
        apply splitOnChar_joinSep
        · intro h
          exact splitOnChar_ne_nil '-' l (List.map_eq_nil_iff.mp h)
        · intro p hp
          rcases List.mem_map.mp hp with ⟨part, hpart, rfl⟩
          exact pcL_special l.length part (length_lt_of_mem_splitOnChar h2 part hpart)
            '-' (by decide) (by decide) (not_mem_of_mem_splitOnChar part hpart) b
      rw [hsub, List.map_map]
      congr 1
      apply List.map_congr_left
      intro part hpart
      exact ihn l.length hln part (length_lt_of_mem_splitOnChar h2 part hpart) b
    rw [if_neg h2]
    by_cases h3 : (startsWithSeq (lowerStr l) "mc".data ∨
        startsWithSeq (lowerStr l) "mac".data) ∧ l.length > 3
    · rw [if_pos h3]
      have hXlow : lowerStr (capWord (l.take (if startsWithSeq (lowerStr l) "mac".data then 3 else 2)) ++ capWord (l.drop (if startsWithSeq (lowerStr l) "mac".data then 3 else 2))) = lowerStr l := by
        rw [lowerStr_append, lowerStr_capWord, lowerStr_capWord, ← lowerStr_append,
          List.take_append_drop]
      have hXascii : ∀ c ∈ (capWord (l.take (if startsWithSeq (lowerStr l) "mac".data then 3 else 2)) ++ capWord (l.drop (if startsWithSeq (lowerStr l) "mac".data then 3 else 2))), c.toNat ≤ 127 := by
        intro c hc
        rcases List.mem_append.mp hc with hm | hm
        · exact ascii_capWord (fun d hd => hascii d (List.take_subset _ _ hd)) c hm
        · exact ascii_capWord (fun d hd => hascii d (List.drop_subset _ _ hd)) c hm
      calc pcL (capWord (l.take (if startsWithSeq (lowerStr l) "mac".data then 3 else 2)) ++ capWord (l.drop (if startsWithSeq (lowerStr l) "mac".data then 3 else 2))) b
          = pcL l b :=
            pcL_congr (l.length + 1) _ (by rw [lower_length_eq hXlow]; omega) l b
              hXlow hXascii hascii
        _ = (capWord (l.take (if startsWithSeq (lowerStr l) "mac".data then 3 else 2)) ++ capWord (l.drop (if startsWithSeq (lowerStr l) "mac".data then 3 else 2))) := by
            rw [pcL_eq l b, if_neg h0, if_neg h1, if_neg h2, if_pos h3]
    rw [if_neg h3]
    by_cases h4 : startsWithSeq (lowerStr l) "o'".data ∧ l.length > 2
    · rw [if_pos h4]
      have hld : l.drop 2 ≠ [] := by
        intro hnil
        have := congrArg List.length hnil
        simp [List.length_drop] at this
        omega
      rcases hdrop : l.drop 2 with _ | ⟨c0, rest⟩
      · exact absurd hdrop hld
      show pcL ('O' :: '\'' :: jsToUpper c0 :: rest.map jsToLower) b =
        'O' :: '\'' :: jsToUpper c0 :: rest.map jsToLower
      have hpre := startsWithSeq_iff.mp h4.1
      have htk : ("o'".data) = (lowerStr l).take 2 := by
        have h := List.prefix_iff_eq_take.mp hpre
        simpa using h
      have hdk : (lowerStr l).drop 2 = jsToLower c0 :: rest.map jsToLower := by
        simp only [lowerStr, ← List.map_drop, hdrop, List.map_cons]
      have hXlow : lowerStr ('O' :: '\'' :: jsToUpper c0 :: rest.map jsToLower) =
          lowerStr l := by
        calc lowerStr ('O' :: '\'' :: jsToUpper c0 :: rest.map jsToLower)
            = 'o' :: '\'' :: jsToLower c0 :: rest.map jsToLower := by
              simp only [lowerStr, List.map_cons, List.map_map]
              rw [show jsToLower 'O' = 'o' from by decide,
                show jsToLower '\'' = '\'' from by decide, jsToLower_jsToUpper]
              simp [Function.comp, jsToLower_jsToLower]
          _ = (lowerStr l).take 2 ++ (lowerStr l).drop 2 := by
              rw [← htk, hdk]
              rfl
          _ = lowerStr l := List.take_append_drop 2 (lowerStr l)
      have hXascii : ∀ c ∈ ('O' :: '\'' :: jsToUpper c0 :: rest.map jsToLower),
          c.toNat ≤ 127 := by
        intro c hc
        have hdsub : l.drop 2 ⊆ l := List.drop_subset _ _
        rcases List.mem_cons.mp hc with rfl | hc
        · decide
        rcases List.mem_cons.mp hc with rfl | hc
        · decide
        rcases List.mem_cons.mp hc with rfl | hc
        · exact jsToUpper_ascii (hascii c0 (hdsub (by rw [hdrop]; simp)))
        · rcases List.mem_map.mp hc with ⟨e, he, rfl⟩
          exact jsToLower_ascii (hascii e (hdsub (by rw [hdrop]; simp [he])))
      calc pcL ('O' :: '\'' :: jsToUpper c0 :: rest.map jsToLower) b
          = pcL l b :=
            pcL_congr (l.length + 1) _ (by rw [lower_length_eq hXlow]; omega) l b
              hXlow hXascii hascii
        _ = 'O' :: '\'' :: jsToUpper c0 :: rest.map jsToLower := by
            rw [pcL_eq l b, if_neg h0, if_neg h1, if_neg h2, if_neg h3, if_pos h4, hdrop]
    rw [if_neg h4]
    by_cases h5 : '\'' ∈ l ∧ ¬ startsWithSeq (lowerStr l) "o'".data ∧
        (splitOnChar '\'' l).length ≥ 2
    · rw [if_pos h5]
      obtain ⟨hin, hnsw, hsplen⟩ := h5
      rcases hps : splitOnChar '\'' l with _ | ⟨p0, tail⟩
      · exact absurd hps (splitOnChar_ne_nil _ _)
      rw [hps] at hsplen
      cases tail with
      | nil => simp at hsplen
      | cons p1 tail2 =>
        simp only [List.headD_cons, List.getD_cons_succ, List.getD_cons_zero]
        have hmem0 : p0 ∈ splitOnChar '\'' l := by rw [hps]; exact List.mem_cons_self _ _
        have hmem1 : p1 ∈ splitOnChar '\'' l := by rw [hps]; simp
        have hp0 : '\'' ∉ p0 := not_mem_of_mem_splitOnChar p0 hmem0
        have hp1 : '\'' ∉ p1 := not_mem_of_mem_splitOnChar p1 hmem1
        have hl_eq : l = p0 ++ '\'' :: joinSep '\'' (p1 :: tail2) := by
          conv_lhs => rw [← joinSep_splitOnChar '\'' l, hps, joinSep_cons_cons]
        have hXlow : lowerStr (capWord p0 ++ '\'' :: capWord p1) =
            lowerStr p0 ++ '\'' :: lowerStr p1 := by
          rw [lowerStr_append, lowerStr_capWord]
          show lowerStr p0 ++ jsToLower '\'' :: lowerStr (capWord p1) = _
          rw [lowerStr_capWord, show jsToLower '\'' = '\'' from by decide]
        have hllow : lowerStr l = lowerStr p0 ++ '\'' :: lowerStr (joinSep '\'' (p1 :: tail2)) := by
          rw [hl_eq]
          simp only [lowerStr, List.map_append, List.map_cons]
          rw [show jsToLower '\'' = '\'' from by decide]
        have hupX : (lowerStr p0 ++ ['\'']) <+: lowerStr (capWord p0 ++ '\'' :: capWord p1) :=
          ⟨lowerStr p1, by rw [hXlow]; simp⟩
        have hpre0l : lowerStr p0 <+: lowerStr l :=
          ⟨'\'' :: lowerStr (joinSep '\'' (p1 :: tail2)), hllow.symm⟩
        have hupl : (lowerStr p0 ++ ['\'']) <+: lowerStr l :=
          ⟨lowerStr (joinSep '\'' (p1 :: tail2)), by rw [hllow]; simp⟩
        have hXne : capWord p0 ++ '\'' :: capWord p1 ≠ [] :=
          List.ne_nil_of_mem (List.mem_append_right _ (List.mem_cons_self _ _))
        have hasc0 : ∀ d ∈ p0, d.toNat ≤ 127 :=
          fun d hd => hascii d (mem_of_mem_splitOnChar p0 hmem0 d hd)
        have hasc1 : ∀ d ∈ p1, d.toNat ≤ 127 :=
          fun d hd => hascii d (mem_of_mem_splitOnChar p1 hmem1 d hd)
        have hXascii : ∀ c ∈ capWord p0 ++ '\'' :: capWord p1, c.toNat ≤ 127 := by
          intro c hc
          rcases List.mem_append.mp hc with hm | hm
          · exact ascii_capWord hasc0 c hm
          rcases List.mem_cons.mp hm with rfl | hm
          · decide
          · exact ascii_capWord hasc1 c hm
        have hXlat : detectScriptStr (capWord p0 ++ '\'' :: capWord p1) = .latin :=
          detectScriptStr_latin_of_ascii hXne hXascii
        have hXs : ¬ (detectScriptStr (capWord p0 ++ '\'' :: capWord p1) ≠ .latin ∧
            detectScriptStr (capWord p0 ++ '\'' :: capWord p1) ≠ .unknown) := by
          rw [hXlat]; simp
        have hXhyph : '-' ∉ capWord p0 ++ '\'' :: capWord p1 := by
          intro hc
          rcases List.mem_append.mp hc with hm | hm
          · exact h2 (mem_of_mem_splitOnChar p0 hmem0 _
              ((mem_capWord_special (by decide) (by decide)).mp hm))
          rcases List.mem_cons.mp hm with he | hm
          · exact absurd he (by decide)
          · exact h2 (mem_of_mem_splitOnChar p1 hmem1 _
              ((mem_capWord_special (by decide) (by decide)).mp hm))
        have hxlen : (capWord p0 ++ '\'' :: capWord p1).length = p0.length + 1 + p1.length := by
          simp only [List.length_append, List.length_cons, length_capWord]
          omega
        have hllen : l.length = p0.length + 1 + (joinSep '\'' (p1 :: tail2)).length := by
          rw [hl_eq]
          simp only [List.length_append, List.length_cons]
          omega
        have hjlen : p1.length ≤ (joinSep '\'' (p1 :: tail2)).length :=
          @length_joinSep_ge_head '\'' p1 tail2
        have hmcX : ¬ ((startsWithSeq (lowerStr (capWord p0 ++ '\'' :: capWord p1)) "mc".data ∨
            startsWithSeq (lowerStr (capWord p0 ++ '\'' :: capWord p1)) "mac".data) ∧
            (capWord p0 ++ '\'' :: capWord p1).length > 3) := by
          rintro ⟨hmm, hlen4⟩
          apply h3
          refine ⟨?_, by omega⟩
          rcases hmm with hm | hm
          · left
            rw [startsWithSeq_iff] at hm ⊢
            rw [hXlow] at hm
            exact (prefix_stops_at hm (by decide)).trans hpre0l
          · right
            rw [startsWithSeq_iff] at hm ⊢
            rw [hXlow] at hm
            exact (prefix_stops_at hm (by decide)).trans hpre0l
        have hnswX : ¬ startsWithSeq (lowerStr (capWord p0 ++ '\'' :: capWord p1)) "o'".data := by
          intro hm0
          rw [startsWithSeq_iff] at hm0
          rw [hXlow] at hm0
          cases hq0 : lowerStr p0 with
          | nil =>
            rw [hq0, List.nil_append] at hm0
            rw [show ("o'".data) = 'o' :: '\'' :: [] from rfl, List.cons_prefix_cons] at hm0
            exact absurd hm0.1 (by decide)
          | cons a as =>
            apply hnsw
            rw [startsWithSeq_iff]
            have hlen2 : ("o'".data).length ≤ (lowerStr p0 ++ ['\'']).length := by
              rw [hq0]; simp
            have hupX2 : (lowerStr p0 ++ ['\'']) <+: (lowerStr p0 ++ '\'' :: lowerStr p1) :=
              ⟨lowerStr p1, by simp⟩
            exact (List.prefix_of_prefix_length_le hm0 hupX2 hlen2).trans hupl
        have ho'X : ¬ (startsWithSeq (lowerStr (capWord p0 ++ '\'' :: capWord p1)) "o'".data ∧
            (capWord p0 ++ '\'' :: capWord p1).length > 2) := fun hcon => hnswX hcon.1
        have hinX : '\'' ∈ capWord p0 ++ '\'' :: capWord p1 :=
          List.mem_append_right _ (List.mem_cons_self _ _)
        rw [pcL_eq, if_neg hXne, if_neg hXs, if_neg hXhyph, if_neg hmcX, if_neg ho'X,
          if_pos ⟨hinX, hnswX, length_splitOnChar_ge_two hinX⟩]
        have hc0 : '\'' ∉ capWord p0 :=
          fun hm => hp0 ((mem_capWord_special (by decide) (by decide)).mp hm)
        have hc1 : '\'' ∉ capWord p1 :=
          fun hm => hp1 ((mem_capWord_special (by decide) (by decide)).mp hm)
        rw [splitOnChar_append_cons hc0, splitOnChar_of_not_mem hc1]
        simp only [List.headD_cons, List.getD_cons_succ, List.getD_cons_zero]
        rw [capWord_capWord, capWord_capWord]
    rw [if_neg h5]
    rcases hph : particleHit l with _ | ⟨p, e⟩
    · show pcL (if '\'' ∈ l then
          capWord ((splitOnChar '\'' l).headD []) ++
            '\'' :: capWord ((splitOnChar '\'' l).getD 1 [])
        else capWord l) b = (if '\'' ∈ l then
          capWord ((splitOnChar '\'' l).headD []) ++
            '\'' :: capWord ((splitOnChar '\'' l).getD 1 [])
        else capWord l)
      by_cases hap : '\'' ∈ l
      · exfalso
        have hsw : startsWithSeq (lowerStr l) "o'".data := by
          by_contra hns
          exact h5 ⟨hap, hns, length_splitOnChar_ge_two hap⟩
        have hlen2 : l.length ≤ 2 := by
          by_contra hgt
          exact h4 ⟨hsw, by omega⟩
        have hpre := startsWithSeq_iff.mp hsw
        have hlp : ("o'".data).length = 2 := by decide
        have hple := hpre.length_le
        have hlln : (lowerStr l).length = l.length := length_lowerStr l
        have hexact : lowerStr l = "o'".data :=
          (hpre.eq_of_length (by omega)).symm
        have hsome := particleHit_exact_intro
          (show ("o'" : String) ∈ NAME_PARTICLES from by decide) hexact
        rw [hph] at hsome
        simp at hsome
      · rw [if_neg hap]
        have hXlow : lowerStr (capWord l) = lowerStr l := lowerStr_capWord l
        calc pcL (capWord l) b
            = pcL l b :=
              pcL_congr (l.length + 1) _ (by rw [length_capWord]; omega) l b
                hXlow (ascii_capWord hascii) hascii
          _ = capWord l := by
              rw [pcL_eq l b, if_neg h0, if_neg h1, if_neg h2, if_neg h3, if_neg h4,
                if_neg h5, hph]
              show (if '\'' ∈ l then
                  capWord ((splitOnChar '\'' l).headD []) ++
                    '\'' :: capWord ((splitOnChar '\'' l).getD 1 [])
                else capWord l) = capWord l
              rw [if_neg hap]
    · cases e
      · rcases particleHit_mem hph with ⟨hp, ⟨hca, -⟩ | ⟨-, hsw, -⟩⟩
        · exact absurd hca (by simp)
        show pcL ((if b then capWord p.data else lowerStr p.data) ++
            ' ' :: pcL (l.drop (p.length + 1)) b) b =
          (if b then capWord p.data else lowerStr p.data) ++
            ' ' :: pcL (l.drop (p.length + 1)) b
        have hpdl : p.length = p.data.length := rfl
        have hnoap : '\'' ∉ l := by
          intro hap
          have hsw' : startsWithSeq (lowerStr l) "o'".data := by
            by_contra hns
            exact h5 ⟨hap, hns, length_splitOnChar_ge_two hap⟩
          have h1' := (startsWithSeq_iff.mp hsw).length_le
          have h2' := pv_len p hp
          simp only [List.length_append, List.length_singleton, length_lowerStr] at h1'
          exact h4 ⟨hsw', by omega⟩
        have hlt : (l.drop (p.length + 1)).length < l.length := by
          have : 0 < l.length := List.length_pos.mpr h0
          rw [List.length_drop]
          omega
        have hR : lowerStr (pcL (l.drop (p.length + 1)) b) =
            lowerStr (l.drop (p.length + 1)) :=
          pcL_lower l.length _ hlt (fun hd => hnoap (List.drop_subset _ _ hd)) b
        have hXlow : lowerStr ((if b then capWord p.data else lowerStr p.data) ++
            ' ' :: pcL (l.drop (p.length + 1)) b) = lowerStr l := by
          obtain ⟨t, ht⟩ := startsWithSeq_iff.mp hsw
          have hplen : (p.data ++ [' ']).length = p.length + 1 := by
            simp only [List.length_append, List.length_singleton]
            rfl
          have hDl : lowerStr (l.drop (p.length + 1)) = t := by
            have hmd : lowerStr (l.drop (p.length + 1)) =
                (lowerStr l).drop (p.length + 1) := by
              simp [lowerStr, List.map_drop]
            rw [hmd, ← ht, List.drop_left' hplen]
          have hpp : lowerStr (if b then capWord p.data else lowerStr p.data) = p.data := by
            cases b
            · rw [if_neg Bool.false_ne_true, lowerStr_lowerStr, pv_lower p hp]
            · rw [if_pos rfl, lowerStr_capWord, pv_lower p hp]
          rw [lowerStr_append, hpp]
          show p.data ++ jsToLower ' ' :: lowerStr (pcL (l.drop (p.length + 1)) b) = lowerStr l
          rw [show jsToLower ' ' = ' ' from by decide, hR, hDl, ← ht]
          simp
        have hXascii : ∀ c ∈ (if b then capWord p.data else lowerStr p.data) ++
            ' ' :: pcL (l.drop (p.length + 1)) b, c.toNat ≤ 127 := by
          intro c hc
          rcases List.mem_append.mp hc with hm | hm
          · split_ifs at hm
            · exact ascii_capWord (pv_ascii p hp) c hm
            · exact ascii_lowerStr (pv_ascii p hp) c hm
          rcases List.mem_cons.mp hm with rfl | hm
          · decide
          · exact pcL_ascii l.length _ hlt
              (fun d hd => hascii d (List.drop_subset _ _ hd)) b c hm
        calc pcL ((if b then capWord p.data else lowerStr p.data) ++
              ' ' :: pcL (l.drop (p.length + 1)) b) b
            = pcL l b :=
              pcL_congr (l.length + 1) _ (by rw [lower_length_eq hXlow]; omega) l b
                hXlow hXascii hascii
          _ = (if b then capWord p.data else lowerStr p.data) ++
              ' ' :: pcL (l.drop (p.length + 1)) b := by
              rw [pcL_eq l b, if_neg h0, if_neg h1, if_neg h2, if_neg h3, if_neg h4,
                if_neg h5, hph]
      · show pcL (if b then capWord l else lowerStr l) b =
          (if b then capWord l else lowerStr l)
        cases b
        · rw [if_neg Bool.false_ne_true]
          calc pcL (lowerStr l) false
              = pcL l false :=
                pcL_congr (l.length + 1) _ (by rw [length_lowerStr]; omega) l false
                  (lowerStr_lowerStr l) (ascii_lowerStr hascii) hascii
            _ = lowerStr l := by
                rw [pcL_eq l false, if_neg h0, if_neg h1, if_neg h2, if_neg h3, if_neg h4,
                  if_neg h5, hph]
                show (if (false : Bool) then capWord l else lowerStr l) = lowerStr l
                rw [if_neg Bool.false_ne_true]
        · rw [if_pos rfl]
          calc pcL (capWord l) true
              = pcL l true :=
                pcL_congr (l.length + 1) _ (by rw [length_capWord]; omega) l true
                  (lowerStr_capWord l) (ascii_capWord hascii) hascii
            _ = capWord l := by
                rw [pcL_eq l true, if_neg h0, if_neg h1, if_neg h2, if_neg h3, if_neg h4,
                  if_neg h5, hph]
                show (if (true : Bool) then capWord l else lowerStr l) = capWord l
                rw [if_pos rfl]

/-- C9: `properCapitalize` is idempotent: for every string and for each value
    of the last-name-position flag, applying `properCapitalize` twice yields
    the same result as applying it once. -/
theorem C9_properCapitalize_idem (s : String) (b : Bool) :
    properCapitalize (properCapitalize s b) b = properCapitalize s b := by
  unfold properCapitalize
  apply string_data_inj
  show pcFuel ((pcFuel (s.data.length + 1) s.data b).length + 1)
      (pcFuel (s.data.length + 1) s.data b) b =
    pcFuel (s.data.length + 1) s.data b
  have h1 : pcFuel (s.data.length + 1) s.data b = pcL s.data b :=
    pcFuel_eq_pcL (by omega)
  rw [h1]
  have h2 : pcFuel ((pcL s.data b).length + 1) (pcL s.data b) b =
      pcL (pcL s.data b) b := pcFuel_eq_pcL (by omega)
  rw [h2]
  exact pcL_idem (s.data.length + 1) s.data (by omega) b

end AddressCleanup
